import Mathlib

/-!
Verification development for the JSON / property-list core of the
Backdoor-Signer repository (`src/Shared/Magic/Signing/zsign/common/json.h`).

The repository ships the interface header only; the implementation
translation unit is not part of the tree.  Consequently the behavioural
definitions below are shallow embeddings modelled from the specification
(`spec.md`), faithful to its words, while the type/layout declarations and
the inline operator bodies are taken from the header itself.

Bytes are modelled as natural numbers, byte strings as `List Nat`,
C-side 64-bit integers as `Int` with explicit range conditions, and
floating-point numbers by their exact decimal value `m * 10 ^ e`
(a pair of integers), since IEEE floating point does not embed shallowly.
-/

/-- The `JValue::TYPE` tag enumeration, from the header (lines 62-73). -/
inductive TYPE where
  | E_NULL
  | E_INT
  | E_BOOL
  | E_FLOAT
  | E_ARRAY
  | E_OBJECT
  | E_STRING
  | E_DATE
  | E_DATA
deriving DecidableEq, Repr

/-- Modelled from the spec: the ValueTree node (`JValue`), a tagged variant
holding exactly one of Null, Integer (64-bit signed, here `Int` with the
range tracked separately), Boolean, Float (modelled by its exact decimal
value `m * 10 ^ e`), String (byte sequence), Array, Object (string-keyed
mapping stored in the mapping's native key order, i.e. sorted), Date
(absolute timestamp), Data (opaque blob).  The implementation translation
unit is absent from `src/`, so the representation follows §3 of the spec. -/
inductive JValue where
  | jNull
  | jInt (n : Int)
  | jBool (b : Bool)
  | jFloat (m : Int) (e : Int)
  | jString (s : List Nat)
  | jArray (xs : List JValue)
  | jObject (kvs : List (List Nat × JValue))
  | jDate (t : Int)
  | jData (d : List Nat)

namespace JValue

/-- The stored type tag of a node (`JValue::type()`). -/
def type : JValue → TYPE
  | jNull => TYPE.E_NULL
  | jInt _ => TYPE.E_INT
  | jBool _ => TYPE.E_BOOL
  | jFloat _ _ => TYPE.E_FLOAT
  | jString _ => TYPE.E_STRING
  | jArray _ => TYPE.E_ARRAY
  | jObject _ => TYPE.E_OBJECT
  | jDate _ => TYPE.E_DATE
  | jData _ => TYPE.E_DATA

/-- Modelled from the spec: `JValue::asInt` — total coercion accessor;
returns the integer payload for an Integer node and the zero value
otherwise (§4.1: mismatched access returns the kind's zero/empty value). -/
def asInt : JValue → Int
  | jInt n => n
  | _ => 0

/-- Modelled from the spec: `JValue::asInt64` — total coercion accessor. -/
def asInt64 : JValue → Int
  | jInt n => n
  | _ => 0

/-- Modelled from the spec: `JValue::asBool` — total coercion accessor. -/
def asBool : JValue → Bool
  | jBool b => b
  | _ => false

/-- Modelled from the spec: `JValue::asFloat` — total coercion accessor.
The float payload is the exact-decimal pair `(m, e)`; the zero value of the
kind is `(0, 0)`, i.e. `0.0`. -/
def asFloat : JValue → Int × Int
  | jFloat m e => (m, e)
  | _ => (0, 0)

/-- Modelled from the spec: `JValue::asString` — total coercion accessor;
empty string on mismatch. -/
def asString : JValue → List Nat
  | jString s => s
  | _ => []

/-- Modelled from the spec: `JValue::asDate` — total coercion accessor;
the epoch date (timestamp 0) on mismatch. -/
def asDate : JValue → Int
  | jDate t => t
  | _ => 0

/-- Modelled from the spec: `JValue::asData` — total coercion accessor;
empty blob on mismatch. -/
def asData : JValue → List Nat
  | jData d => d
  | _ => []

/-- Modelled from the spec: `JValue::asCString` — the String payload for a
String node, the empty C string otherwise (total, like the other coercion
accessors). -/
def asCString : JValue → List Nat
  | jString s => s
  | _ => []

/-- Modelled from the spec: `JValue::size()` — element count for
Array/Object, byte length for String/Data, 0 for scalar/Null kinds
(§4.1). -/
def size : JValue → Nat
  | jArray xs => xs.length
  | jObject kvs => kvs.length
  | jString s => s.length
  | jData d => d.length
  | _ => 0

/-- Modelled from the spec: `JValue::has(key)` — pure query, true exactly
when the node is an Object containing the key (§4.1). -/
def has : JValue → List Nat → Bool
  | jObject kvs, k => kvs.any (fun kv => kv.1 = k)
  | _, _ => false

/-- Look up a key in an association list (first match). -/
def lookupKV : List (List Nat × JValue) → List Nat → Option JValue
  | [], _ => none
  | (k1, v1) :: r, k => if k1 = k then some v1 else lookupKV r k

/-- Strict lexicographic order on byte-string keys (the mapping's native
key order used by the Object representation). -/
def keyLt : List Nat → List Nat → Bool
  | [], [] => false
  | [], _ :: _ => true
  | _ :: _, [] => false
  | a :: as_, b :: bs => if a < b then true else if b < a then false else keyLt as_ bs

/-- Insert (or overwrite) a key/value pair keeping the list sorted by
`keyLt` — the Object mapping's insertion operation. -/
def insertKV : List (List Nat × JValue) → List Nat → JValue → List (List Nat × JValue)
  | [], k, v => [(k, v)]
  | (k1, v1) :: r, k, v =>
    if keyLt k k1 then (k, v) :: (k1, v1) :: r
    else if k = k1 then (k, v) :: r
    else (k1, v1) :: insertKV r k v

/-- Remove a key from the association list. -/
def eraseKV : List (List Nat × JValue) → List Nat → List (List Nat × JValue)
  | [], _ => []
  | (k1, v1) :: r, k => if k1 = k then r else (k1, v1) :: eraseKV r k

/-- Modelled from the spec: the process-wide immutable Null sentinel
(`JValue::null`, header line 235). -/
def nullSentinel : JValue := jNull

/-- Modelled from the spec: `JValue::at(key)` / `operator[](key)` —
auto-vivifying string-key indexing (§4.1): a Null node becomes an empty
Object first; an Object inserts a Null entry at an absent key and returns
a reference to the entry; any other node kind returns the Null sentinel
and performs no mutation.  The result models the pair (node state after
the call, value referenced by the returned reference). -/
def atKey : JValue → List Nat → JValue × JValue
  | jNull, k => (jObject [(k, jNull)], jNull)
  | jObject kvs, k =>
    match lookupKV kvs k with
    | some v => (jObject kvs, v)
    | none => (jObject (insertKV kvs k jNull), jNull)
  | v, _ => (v, nullSentinel)

/-- Modelled from the spec: the compound statement `v[key] = x` — the
auto-vivifying index followed by assignment through the returned
reference.  When the reference is the immutable Null sentinel (wrong node
kind), the node is unchanged. -/
def setKey : JValue → List Nat → JValue → JValue
  | jNull, k, x => jObject [(k, x)]
  | jObject kvs, k, x => jObject (insertKV kvs k x)
  | v, _, _ => v

/-- Modelled from the spec: `JValue::at(index)` / `operator[](int)` —
auto-vivifying integer indexing (§4.1): a Null node is converted to an
Array on first use; indexing an Array past its current length extends it
(with Null padding, one policy within §9's latitude); any other node kind
returns the Null sentinel and performs no mutation. -/
def atIdx : JValue → Nat → JValue × JValue
  | jNull, i => (jArray (List.replicate (i + 1) jNull), jNull)
  | jArray xs, i =>
    if h : i < xs.length then (jArray xs, xs.get ⟨i, h⟩)
    else (jArray (xs ++ List.replicate (i + 1 - xs.length) jNull), jNull)
  | v, _ => (v, nullSentinel)

/-- Modelled from the spec: `JValue::remove(key)` — returns false and
leaves the node unchanged if the node is not an Object or the key is
absent; otherwise removes the mapping entry (§4.1). -/
def removeKey : JValue → List Nat → Bool × JValue
  | jObject kvs, k =>
    if kvs.any (fun kv => kv.1 = k) then (true, jObject (eraseKV kvs k))
    else (false, jObject kvs)
  | v, _ => (false, v)

/-- Modelled from the spec: `JValue::remove(index)` — returns false and
leaves the node unchanged if the node is not an Array or the index is out
of range; otherwise erases the element, shifting the rest down (§4.1). -/
def removeIdx : JValue → Nat → Bool × JValue
  | jArray xs, i =>
    if i < xs.length then (true, jArray (xs.take i ++ xs.drop (i + 1)))
    else (false, jArray xs)
  | v, _ => (false, v)

end JValue

/-- C `strcmp` over byte lists, the list end standing for the NUL
terminator (an explicit 0 byte also terminates).  Returns the difference
of the first mismatching bytes, 0 on equality — the semantics the header's
inline comparison operators (lines 220-226) rely on. -/
def strcmp : List Nat → List Nat → Int
  | [], [] => 0
  | [], b :: _ => if b % 256 = 0 then 0 else -((b : Int) % 256)
  | a :: _, [] => if a % 256 = 0 then 0 else (a : Int) % 256
  | a :: as_, b :: bs =>
    if a % 256 = 0 ∧ b % 256 = 0 then 0
    else if a % 256 = b % 256 then strcmp as_ bs
    else (a : Int) % 256 - (b : Int) % 256

/-- Truncate a byte list at the first NUL byte and reduce bytes mod 256 —
the character sequence a C string denotes. -/
def cstrNorm (l : List Nat) : List Nat :=
  (l.map (· % 256)).takeWhile (fun b => b ≠ 0)

namespace JValue

/-- From the header (line 220): `operator==(const JValue&, const char*)`
returns `0 == strcmp(jv.asCString(), psz)`. -/
def eqCStr (jv : JValue) (psz : List Nat) : Bool := strcmp jv.asCString psz == 0

/-- From the header (line 222): `operator==(const char*, const JValue&)`
returns `0 == strcmp(jv.asCString(), psz)`. -/
def cStrEq (psz : List Nat) (jv : JValue) : Bool := strcmp jv.asCString psz == 0

/-- From the header (line 224): `operator!=(const JValue&, const char*)`
returns `0 != strcmp(jv.asCString(), psz)`. -/
def neCStr (jv : JValue) (psz : List Nat) : Bool := !(strcmp jv.asCString psz == 0)

/-- From the header (line 226): `operator!=(const char*, const JValue&)`. -/
def cStrNe (psz : List Nat) (jv : JValue) : Bool := !(strcmp jv.asCString psz == 0)

end JValue

/-- The `JValue::HOLD` union (header lines 239-250), as a sum: exactly one
arm is ever active.  The `vUnicode` arm has no corresponding `TYPE` tag and
is only used transiently by the decoders, so it is not a reachable resting
representation and is omitted.  Array/Object children are the model trees. -/
inductive HOLD where
  | hNull
  | hBool (b : Bool)
  | hInt64 (n : Int)
  | hFloat (m e : Int)
  | hString (s : List Nat)
  | hArray (xs : List JValue)
  | hObject (kvs : List (List Nat × JValue))
  | hDate (t : Int)
  | hData (d : List Nat)

/-- The tag that matches a representation arm. -/
def HOLD.tagOf : HOLD → TYPE
  | .hNull => TYPE.E_NULL
  | .hBool _ => TYPE.E_BOOL
  | .hInt64 _ => TYPE.E_INT
  | .hFloat _ _ => TYPE.E_FLOAT
  | .hString _ => TYPE.E_STRING
  | .hArray _ => TYPE.E_ARRAY
  | .hObject _ => TYPE.E_OBJECT
  | .hDate _ => TYPE.E_DATE
  | .hData _ => TYPE.E_DATA

/-- The raw stored state of a `JValue`: the union member `m_Value` beside
the separate tag `m_eType` (header lines 239-252). -/
structure JValueS where
  m_Value : HOLD
  m_eType : TYPE

/-- Tag/representation consistency: the stored tag equals the tag of the
active union arm. -/
def JValueS.consistent (s : JValueS) : Prop := s.m_eType = s.m_Value.tagOf

/-- Modelled from the spec: the representation installed by the
`JValue(TYPE)` constructor — the kind's zero/empty value. -/
def defaultHold : TYPE → HOLD
  | TYPE.E_NULL => HOLD.hNull
  | TYPE.E_INT => HOLD.hInt64 0
  | TYPE.E_BOOL => HOLD.hBool false
  | TYPE.E_FLOAT => HOLD.hFloat 0 0
  | TYPE.E_ARRAY => HOLD.hArray []
  | TYPE.E_OBJECT => HOLD.hObject []
  | TYPE.E_STRING => HOLD.hString []
  | TYPE.E_DATE => HOLD.hDate 0
  | TYPE.E_DATA => HOLD.hData []

namespace JValueS

/-- Modelled from the spec: `JValue(TYPE)` constructor. -/
def ctorType (t : TYPE) : JValueS := ⟨defaultHold t, t⟩

/-- Modelled from the spec: `JValue(int)` / `JValue(int64_t)` constructor. -/
def ctorInt (n : Int) : JValueS := ⟨HOLD.hInt64 n, TYPE.E_INT⟩

/-- Modelled from the spec: `JValue(bool)` constructor. -/
def ctorBool (b : Bool) : JValueS := ⟨HOLD.hBool b, TYPE.E_BOOL⟩

/-- Modelled from the spec: `JValue(double)` constructor. -/
def ctorFloat (m e : Int) : JValueS := ⟨HOLD.hFloat m e, TYPE.E_FLOAT⟩

/-- Modelled from the spec: `JValue(const char*)` / `JValue(string)`
constructor. -/
def ctorString (s : List Nat) : JValueS := ⟨HOLD.hString s, TYPE.E_STRING⟩

/-- Modelled from the spec: `operator=(int)` / `operator=(int64_t)` —
frees the previous representation, then installs the integer; the result
is independent of the previous state (the discard). -/
def opAssignInt (_ : JValueS) (n : Int) : JValueS := ⟨HOLD.hInt64 n, TYPE.E_INT⟩

/-- Modelled from the spec: `operator=(bool)`. -/
def opAssignBool (_ : JValueS) (b : Bool) : JValueS := ⟨HOLD.hBool b, TYPE.E_BOOL⟩

/-- Modelled from the spec: `operator=(double)`. -/
def opAssignFloat (_ : JValueS) (m e : Int) : JValueS := ⟨HOLD.hFloat m e, TYPE.E_FLOAT⟩

/-- Modelled from the spec: `operator=(const char*)` / `operator=(string)`. -/
def opAssignString (_ : JValueS) (s : List Nat) : JValueS := ⟨HOLD.hString s, TYPE.E_STRING⟩

/-- Modelled from the spec: `operator=(const JValue&)` — deep copy of the
source's representation and tag. -/
def opAssignCopy (_ src : JValueS) : JValueS := src

/-- Modelled from the spec: `clear()` resets the node to Null, releasing
any owned children (§4.1). -/
def clearS (_ : JValueS) : JValueS := ⟨HOLD.hNull, TYPE.E_NULL⟩

/-- Modelled from the spec: `assignData` installs an opaque blob. -/
def assignDataS (_ : JValueS) (d : List Nat) : JValueS := ⟨HOLD.hData d, TYPE.E_DATA⟩

/-- Modelled from the spec: `assignDate` installs a timestamp. -/
def assignDateS (_ : JValueS) (t : Int) : JValueS := ⟨HOLD.hDate t, TYPE.E_DATE⟩

/-- The stored state corresponding to a model tree — the state a node is
left in by tree-producing operations (parsing, indexing mutations). -/
def fromTree : JValue → JValueS
  | JValue.jNull => ⟨HOLD.hNull, TYPE.E_NULL⟩
  | JValue.jInt n => ⟨HOLD.hInt64 n, TYPE.E_INT⟩
  | JValue.jBool b => ⟨HOLD.hBool b, TYPE.E_BOOL⟩
  | JValue.jFloat m e => ⟨HOLD.hFloat m e, TYPE.E_FLOAT⟩
  | JValue.jString s => ⟨HOLD.hString s, TYPE.E_STRING⟩
  | JValue.jArray xs => ⟨HOLD.hArray xs, TYPE.E_ARRAY⟩
  | JValue.jObject kvs => ⟨HOLD.hObject kvs, TYPE.E_OBJECT⟩
  | JValue.jDate t => ⟨HOLD.hDate t, TYPE.E_DATE⟩
  | JValue.jData d => ⟨HOLD.hData d, TYPE.E_DATA⟩

/-- The states reachable through the public `JValue` lifecycle:
construction, assignment, mutation, clear, and adoption of a parse
result. -/
inductive Reachable : JValueS → Prop
  | ofCtorType (t : TYPE) : Reachable (ctorType t)
  | ofCtorInt (n : Int) : Reachable (ctorInt n)
  | ofCtorBool (b : Bool) : Reachable (ctorBool b)
  | ofCtorFloat (m e : Int) : Reachable (ctorFloat m e)
  | ofCtorString (s : List Nat) : Reachable (ctorString s)
  | ofAssignInt (s : JValueS) (n : Int) : Reachable s → Reachable (opAssignInt s n)
  | ofAssignBool (s : JValueS) (b : Bool) : Reachable s → Reachable (opAssignBool s b)
  | ofAssignFloat (s : JValueS) (m e : Int) : Reachable s → Reachable (opAssignFloat s m e)
  | ofAssignString (s : JValueS) (str : List Nat) : Reachable s → Reachable (opAssignString s str)
  | ofAssignCopy (s src : JValueS) : Reachable s → Reachable src → Reachable (opAssignCopy s src)
  | ofClear (s : JValueS) : Reachable s → Reachable (clearS s)
  | ofAssignData (s : JValueS) (d : List Nat) : Reachable s → Reachable (assignDataS s d)
  | ofAssignDate (s : JValueS) (t : Int) : Reachable s → Reachable (assignDateS s t)
  | ofTree (v : JValue) : Reachable (fromTree v)

end JValueS

-- ————————————————————————————————————————————————————————————————————
-- JSON text reader and writer (JReader / JWriter)
-- ————————————————————————————————————————————————————————————————————

/-- Decimal digit byte test. -/
def isDigitB (c : Nat) : Bool := decide (48 ≤ c) && decide (c ≤ 57)

/-- Bytes a number token may contain (digits, signs, decimal point,
exponent markers) — the tokenizer's number character class. -/
def isNumChar (c : Nat) : Bool :=
  isDigitB c || c == 43 || c == 45 || c == 46 || c == 101 || c == 69

/-- Decimal digit bytes of a natural number, most significant first. -/
def natToDigits (n : Nat) : List Nat :=
  if _ : n < 10 then [48 + n]
  else natToDigits (n / 10) ++ [48 + n % 10]
decreasing_by exact Nat.div_lt_self (by omega) (by omega)

/-- Decimal digit bytes of an integer, with a leading minus sign when
negative. -/
def intToDigits (i : Int) : List Nat :=
  if i < 0 then 45 :: natToDigits i.natAbs else natToDigits i.natAbs

/-- Value of a run of decimal digit bytes. -/
def digitsVal (l : List Nat) : Nat := l.foldl (fun a d => a * 10 + (d - 48)) 0

/-- Apply an optional leading minus sign. -/
def applySign (neg : Bool) (n : Nat) : Int := if neg then -(n : Int) else (n : Int)

/-- Signed 64-bit range test (the representation limit of the Integer
kind). -/
def inInt64 (n : Int) : Bool := decide (-(2 ^ 63) ≤ n) && decide (n ≤ 2 ^ 63 - 1)

/-- Split a leading minus sign off a number token. -/
def splitSign : List Nat → Bool × List Nat
  | [] => (false, [])
  | c :: r => if c = 45 then (true, r) else (false, c :: r)

/-- Modelled from the spec: decoding of the exponent part of a number
token, after the `e`/`E` marker — optional sign, then digits, nothing
further. -/
def decodeExpTail (l : List Nat) : Option Int :=
  match l with
  | [] => none
  | c :: r =>
    if c = 43 then
      if r.takeWhile isDigitB = [] ∨ r.dropWhile isDigitB ≠ [] then none
      else some (applySign false (digitsVal (r.takeWhile isDigitB)))
    else if c = 45 then
      if r.takeWhile isDigitB = [] ∨ r.dropWhile isDigitB ≠ [] then none
      else some (applySign true (digitsVal (r.takeWhile isDigitB)))
    else
      if (c :: r).takeWhile isDigitB = [] ∨ (c :: r).dropWhile isDigitB ≠ [] then none
      else some (applySign false (digitsVal ((c :: r).takeWhile isDigitB)))

/-- Modelled from the spec: `JReader::decodeNumber` (with `decodeDouble`
for the floating path, §4.2) — an Integer representation unless the token
contains a decimal point or an exponent marker or its value overflows a
signed 64-bit integer, in which case the Float representation is produced.
Floats are the exact decimal value `m * 10 ^ e`; the decode is a pure
function of the token bytes (locale independence is intrinsic). -/
def decodeNumber (tok : List Nat) : Option JValue :=
  if (splitSign tok).2.takeWhile isDigitB = [] then none
  else
    match (splitSign tok).2.dropWhile isDigitB with
    | [] =>
      if inInt64 (applySign (splitSign tok).1 (digitsVal ((splitSign tok).2.takeWhile isDigitB)))
      then some (JValue.jInt
        (applySign (splitSign tok).1 (digitsVal ((splitSign tok).2.takeWhile isDigitB))))
      else some (JValue.jFloat
        (applySign (splitSign tok).1 (digitsVal ((splitSign tok).2.takeWhile isDigitB))) 0)
    | c :: r3 =>
      if c = 46 then
        if r3.takeWhile isDigitB = [] then none
        else
          match r3.dropWhile isDigitB with
          | [] => some (JValue.jFloat
              (applySign (splitSign tok).1
                (digitsVal ((splitSign tok).2.takeWhile isDigitB ++ r3.takeWhile isDigitB)))
              (-((r3.takeWhile isDigitB).length : Int)))
          | c2 :: r5 =>
            if c2 = 101 ∨ c2 = 69 then
              (decodeExpTail r5).map (fun ex => JValue.jFloat
                (applySign (splitSign tok).1
                  (digitsVal ((splitSign tok).2.takeWhile isDigitB ++ r3.takeWhile isDigitB)))
                (ex - ((r3.takeWhile isDigitB).length : Int)))
            else none
      else if c = 101 ∨ c = 69 then
        (decodeExpTail r3).map (fun ex => JValue.jFloat
          (applySign (splitSign tok).1 (digitsVal ((splitSign tok).2.takeWhile isDigitB))) ex)
      else none

/-- Skip the remainder of a `//…` comment (through the newline). -/
def skipLineComment : List Nat → List Nat
  | [] => []
  | c :: r => if c = 10 then r else skipLineComment r

/-- Skip the remainder of a `/*…*/` comment (past the closing marker). -/
def skipBlockComment : List Nat → List Nat
  | [] => []
  | [_] => []
  | c :: c2 :: r => if c = 42 ∧ c2 = 47 then r else skipBlockComment (c2 :: r)

/-- Modelled from the spec: `JReader::skipSpaces`/`skipComment` — skip
whitespace and both comment forms between tokens (fuelled worker). -/
def skipWsF : Nat → List Nat → List Nat
  | 0, s => s
  | _ + 1, [] => []
  | fu + 1, c :: rest =>
    if c = 32 ∨ c = 9 ∨ c = 10 ∨ c = 13 then skipWsF fu rest
    else if c = 47 then
      match rest with
      | [] => c :: rest
      | c2 :: r2 =>
        if c2 = 47 then skipWsF fu (skipLineComment r2)
        else if c2 = 42 then skipWsF fu (skipBlockComment r2)
        else c :: rest
    else c :: rest

/-- Skip whitespace and comments (each step consumes at least one byte, so
the input length is sufficient fuel). -/
def skipWs (s : List Nat) : List Nat := skipWsF s.length s

/-- Value of a hexadecimal digit byte. -/
def hexVal (c : Nat) : Option Nat :=
  if 48 ≤ c ∧ c ≤ 57 then some (c - 48)
  else if 65 ≤ c ∧ c ≤ 70 then some (c - 55)
  else if 97 ≤ c ∧ c ≤ 102 then some (c - 87)
  else none

/-- Read four hexadecimal digit bytes (`\uXXXX` payload). -/
def readHex4 : List Nat → Option (Nat × List Nat)
  | a :: b :: c :: d :: r =>
    hexVal a >>= fun x1 => hexVal b >>= fun x2 => hexVal c >>= fun x3 => hexVal d >>= fun x4 =>
      some (((x1 * 16 + x2) * 16 + x3) * 16 + x4, r)
  | _ => none

/-- UTF-8 encoding of a code point. -/
def utf8Encode (cp : Nat) : List Nat :=
  if cp < 128 then [cp]
  else if cp < 2048 then [192 + cp / 64, 128 + cp % 64]
  else if cp < 65536 then [224 + cp / 4096, 128 + (cp / 64) % 64, 128 + cp % 64]
  else [240 + cp / 262144, 128 + (cp / 4096) % 64, 128 + (cp / 64) % 64, 128 + cp % 64]

/-- A reader failure: the unconsumed input at the failure point (from
which the byte offset is computed) and the descriptive message
(`JReader::m_pErr` / `m_strErr`). -/
structure PErr where
  rest : List Nat
  msg : String

/-- Modelled from the spec: `JReader::readString`/`decodeString` — body of
a double-quoted string after the opening quote, decoding the standard
escapes and `\uXXXX` (including surrogate-pair combination into UTF-8);
returns the decoded bytes and the input after the closing quote. -/
def parseStrF : Nat → List Nat → Except PErr (List Nat × List Nat)
  | 0, s => .error ⟨s, "unterminated string"⟩
  | _ + 1, [] => .error ⟨[], "unterminated string"⟩
  | fu + 1, c :: rest =>
    if c = 34 then .ok ([], rest)
    else if c = 92 then
      match rest with
      | [] => .error ⟨[], "unterminated string"⟩
      | e1 :: r2 =>
        if e1 = 34 ∨ e1 = 92 ∨ e1 = 47 then
          (parseStrF fu r2).map (fun p => (e1 :: p.1, p.2))
        else if e1 = 98 then (parseStrF fu r2).map (fun p => (8 :: p.1, p.2))
        else if e1 = 102 then (parseStrF fu r2).map (fun p => (12 :: p.1, p.2))
        else if e1 = 110 then (parseStrF fu r2).map (fun p => (10 :: p.1, p.2))
        else if e1 = 114 then (parseStrF fu r2).map (fun p => (13 :: p.1, p.2))
        else if e1 = 116 then (parseStrF fu r2).map (fun p => (9 :: p.1, p.2))
        else if e1 = 117 then
          match readHex4 r2 with
          | none => .error ⟨r2, "invalid unicode escape"⟩
          | some (cp, r3) =>
            if 55296 ≤ cp ∧ cp ≤ 56319 then
              match r3 with
              | 92 :: 117 :: r4 =>
                match readHex4 r4 with
                | none => .error ⟨r4, "invalid unicode escape"⟩
                | some (cp2, r5) =>
                  if 56320 ≤ cp2 ∧ cp2 ≤ 57343 then
                    (parseStrF fu r5).map (fun p =>
                      (utf8Encode (65536 + (cp - 55296) * 1024 + (cp2 - 56320)) ++ p.1, p.2))
                  else .error ⟨r4, "invalid surrogate pair"⟩
              | _ => .error ⟨r3, "invalid surrogate pair"⟩
            else (parseStrF fu r3).map (fun p => (utf8Encode cp ++ p.1, p.2))
        else .error ⟨rest, "invalid escape"⟩
    else (parseStrF fu rest).map (fun p => (c :: p.1, p.2))

mutual

/-- Modelled from the spec: the recursive-descent value parser
(`JReader::readValue` with `readToken`, §4.2): parses one value.  The
fuel argument bounds the recursion; one unit is consumed per structural
step, so any fuel exceeding the input length suffices. -/
def parseVal : Nat → List Nat → Except PErr (JValue × List Nat)
  | 0, s => .error ⟨s, "document too deep"⟩
  | fu + 1, s =>
    match skipWs s with
    | [] => .error ⟨[], "value expected"⟩
    | c :: rest =>
      if c = 110 then
        match rest with
        | 117 :: 108 :: 108 :: r => .ok (JValue.jNull, r)
        | _ => .error ⟨c :: rest, "invalid token"⟩
      else if c = 116 then
        match rest with
        | 114 :: 117 :: 101 :: r => .ok (JValue.jBool true, r)
        | _ => .error ⟨c :: rest, "invalid token"⟩
      else if c = 102 then
        match rest with
        | 97 :: 108 :: 115 :: 101 :: r => .ok (JValue.jBool false, r)
        | _ => .error ⟨c :: rest, "invalid token"⟩
      else if c = 34 then
        (parseStrF (rest.length + 1) rest).map (fun p => (JValue.jString p.1, p.2))
      else if c = 91 then
        match skipWs rest with
        | [] => .error ⟨[], "value expected"⟩
        | c2 :: r2 =>
          if c2 = 93 then .ok (JValue.jArray [], r2)
          else (parseElems fu (c2 :: r2)).map (fun p => (JValue.jArray p.1, p.2))
      else if c = 123 then
        match skipWs rest with
        | [] => .error ⟨[], "expected object key string"⟩
        | c2 :: r2 =>
          if c2 = 125 then .ok (JValue.jObject [], r2)
          else parseMembs fu [] (c2 :: r2)
      else if isDigitB c || c == 45 then
        match decodeNumber ((c :: rest).takeWhile isNumChar) with
        | some v => .ok (v, (c :: rest).dropWhile isNumChar)
        | none => .error ⟨c :: rest, "invalid number"⟩
      else .error ⟨c :: rest, "value expected"⟩

/-- Modelled from the spec: the elements of a non-empty array after `[`
(`JReader::readArray`). -/
def parseElems : Nat → List Nat → Except PErr (List JValue × List Nat)
  | 0, s => .error ⟨s, "document too deep"⟩
  | fu + 1, s =>
    (parseVal fu s).bind fun p =>
      match skipWs p.2 with
      | [] => .error ⟨[], "expected comma or end of array"⟩
      | c :: r =>
        if c = 44 then (parseElems fu r).map (fun q => (p.1 :: q.1, q.2))
        else if c = 93 then .ok ([p.1], r)
        else .error ⟨c :: r, "expected comma or end of array"⟩

/-- Modelled from the spec: the members of a non-empty object after `{`
(`JReader::readObject`), accumulating into the Object mapping (later
duplicates overwrite). -/
def parseMembs : Nat → List (List Nat × JValue) → List Nat →
    Except PErr (JValue × List Nat)
  | 0, _, s => .error ⟨s, "document too deep"⟩
  | fu + 1, acc, s =>
    match skipWs s with
    | [] => .error ⟨[], "expected object key string"⟩
    | c :: rest =>
      if c = 34 then
        (parseStrF (rest.length + 1) rest).bind fun kp =>
          match skipWs kp.2 with
          | [] => .error ⟨[], "expected colon"⟩
          | c2 :: r2 =>
            if c2 = 58 then
              (parseVal fu r2).bind fun vp =>
                match skipWs vp.2 with
                | [] => .error ⟨[], "expected comma or end of object"⟩
                | c3 :: r3 =>
                  if c3 = 44 then parseMembs fu (JValue.insertKV acc kp.1 vp.1) r3
                  else if c3 = 125 then
                    .ok (JValue.jObject (JValue.insertKV acc kp.1 vp.1), r3)
                  else .error ⟨c3 :: r3, "expected comma or end of object"⟩
            else .error ⟨c2 :: r2, "expected colon"⟩
      else .error ⟨c :: rest, "expected object key string"⟩

end

namespace JReader

/-- Modelled from the spec: `JReader::parse` — parse the root value;
trailing bytes after the root are ignored (§6). -/
def parse (doc : List Nat) : Except PErr JValue :=
  (parseVal (doc.length + 1) doc).map (fun p => p.1)

/-- The byte offset of a failure, as `JReader::error` exposes it
(`m_pErr - m_pBeg`): total length minus unconsumed length. -/
def errOffset (doc : List Nat) (e : PErr) : Nat := doc.length - e.rest.length

end JReader

/-- Byte for a hexadecimal digit (uppercase). -/
def hexDigitChar (d : Nat) : Nat := if d < 10 then 48 + d else 55 + d

/-- Modelled from the spec: `JWriter`'s string escaping — quote and
backslash escaped, control characters written as `\u00XX`, everything
else verbatim (§4.3). -/
def escByte (c : Nat) : List Nat :=
  if c = 34 then [92, 34]
  else if c = 92 then [92, 92]
  else if c < 32 then [92, 117, 48, 48, hexDigitChar (c / 16), hexDigitChar (c % 16)]
  else [c]

/-- Escape a whole string body. -/
def escape : List Nat → List Nat
  | [] => []
  | c :: r => escByte c ++ escape r

mutual

/-- Modelled from the spec: `JWriter::FastWrite`/`FastWriteValue` — the
compact serializer: no inserted whitespace, strings escaped, numbers in a
round-trip-preserving decimal form (floats as `<mantissa>e<exponent>`),
members in the mapping's native order (§4.3).  Date and Data have no JSON
form; they are written as quoted text (they do not occur in trees produced
by the JSON reader). -/
def writeV : JValue → List Nat
  | .jNull => [110, 117, 108, 108]
  | .jBool true => [116, 114, 117, 101]
  | .jBool false => [102, 97, 108, 115, 101]
  | .jInt n => intToDigits n
  | .jFloat m e => intToDigits m ++ 101 :: intToDigits e
  | .jString s => 34 :: escape s ++ [34]
  | .jArray [] => [91, 93]
  | .jArray (x :: xs) => 91 :: writeElems x xs ++ [93]
  | .jObject [] => [123, 125]
  | .jObject (kv :: kvs) => 123 :: writeMembs kv kvs ++ [125]
  | .jDate t => 34 :: intToDigits t ++ [34]
  | .jData d => 34 :: escape d ++ [34]
termination_by v => sizeOf v
decreasing_by all_goals (simp; try omega)

/-- Elements of a non-empty array, comma separated. -/
def writeElems : JValue → List JValue → List Nat
  | x, [] => writeV x
  | x, y :: ys => writeV x ++ 44 :: writeElems y ys
termination_by x xs => sizeOf x + sizeOf xs
decreasing_by all_goals (simp; try omega)

/-- Members of a non-empty object, `"key":value` comma separated. -/
def writeMembs : List Nat × JValue → List (List Nat × JValue) → List Nat
  | (k, v), [] => 34 :: escape k ++ 34 :: 58 :: writeV v
  | (k, v), kv2 :: kvs => 34 :: escape k ++ 34 :: 58 :: writeV v ++ 44 :: writeMembs kv2 kvs
termination_by kv kvs => sizeOf kv + sizeOf kvs
decreasing_by all_goals (simp; try omega)

end

namespace JWriter

/-- `JWriter::FastWrite`: the compact serialization of a tree. -/
def FastWrite (v : JValue) : List Nat := writeV v

end JWriter

/-- Well-formedness of a reader result with respect to its input: a
success leaves a suffix no longer than the input; a failure carries a
non-empty message and an unconsumed remainder no longer than the input
(so the error's byte offset is well defined). -/
def ResLen {α : Type} (s : List Nat) : Except PErr (α × List Nat) → Prop
  | .ok p => p.2.length ≤ s.length
  | .error e => e.msg ≠ "" ∧ e.rest.length ≤ s.length

/-- The integer value of a number token read as a plain (dot- and
exponent-free) decimal: sign applied to the value of its leading digit
run. -/
def plainIntVal (tok : List Nat) : Int :=
  applySign (splitSign tok).1 (digitsVal ((splitSign tok).2.takeWhile isDigitB))

/-- Whether a number token contains a decimal point or an exponent
marker. -/
def hasDotOrExp (tok : List Nat) : Bool :=
  tok.any (fun c => c == 46 || c == 101 || c == 69)

/-- The key order relation on Object entries (by `keyLt` on the keys). -/
def keyRel (a b : List Nat × JValue) : Prop := JValue.keyLt a.1 b.1 = true

/-- Well-formed trees: exactly the trees the JSON reader can produce —
integers within the signed 64-bit range, Object entry lists strictly
sorted in the mapping's native key order, children well formed, and no
Date/Data nodes (JSON has no syntax for them). -/
inductive WF : JValue → Prop where
  | wfNull : WF JValue.jNull
  | wfBool (b : Bool) : WF (JValue.jBool b)
  | wfInt (n : Int) (h : inInt64 n = true) : WF (JValue.jInt n)
  | wfFloat (m e : Int) : WF (JValue.jFloat m e)
  | wfString (s : List Nat) : WF (JValue.jString s)
  | wfArray (xs : List JValue) (h : ∀ x ∈ xs, WF x) : WF (JValue.jArray xs)
  | wfObject (kvs : List (List Nat × JValue)) (hs : List.Pairwise keyRel kvs)
      (hv : ∀ kv ∈ kvs, WF kv.2) : WF (JValue.jObject kvs)

/-- The input does not begin with a number-token byte (so a preceding
number token ends exactly at this boundary). -/
def headNotNum : List Nat → Prop
  | [] => True
  | c :: _ => isNumChar c = false

-- ————————————————————————————————————————————————————————————————————
-- PReader binary property-list decoder
-- ————————————————————————————————————————————————————————————————————

/-- One byte of the input buffer, modelled as a memory function plus a
length: a read at or past `len` fails cleanly — the bounds-checked cursor
the spec's safety contract mandates (§4.4, §9). -/
def readByte (mem : Nat → Nat) (len i : Nat) : Option Nat :=
  if i < len then some (mem i % 256) else none

/-- Read `n` consecutive bytes starting at `i`. -/
def readBytesM (mem : Nat → Nat) (len : Nat) : Nat → Nat → Option (List Nat)
  | _, 0 => some []
  | i, n + 1 =>
    (readByte mem len i).bind fun b =>
      (readBytesM mem len (i + 1) n).map fun bs => b :: bs

/-- Big-endian value of a byte run (`PReader::getUIntVal`). -/
def beVal (bs : List Nat) : Nat := bs.foldl (fun a b => a * 256 + b) 0

/-- Read an `n`-byte big-endian unsigned integer. -/
def readUIntBE (mem : Nat → Nat) (len i n : Nat) : Option Nat :=
  (readBytesM mem len i n).map beVal

/-- Two's-complement reading of an `nbytes`-wide value. -/
def toSigned (v nbytes : Nat) : Int :=
  if v < 2 ^ (8 * nbytes - 1) then (v : Int) else (v : Int) - 2 ^ (8 * nbytes)

/-- The trailer-derived decoding parameters (§4.4 step 2): offset-entry
width, object-reference width, object count, offset-table position. -/
structure BCfg where
  offSize : Nat
  refSize : Nat
  numObjects : Nat
  tableOff : Nat

/-- Modelled from the spec: the logical value decoded from a binary
plist.  Reals and dates keep their raw big-endian bit patterns (IEEE
floating point does not shallow-embed); sets decode like arrays. -/
inductive BValue where
  | bNull
  | bBool (b : Bool)
  | bInt (n : Int)
  | bReal (bits : Nat) (nbytes : Nat)
  | bDate (bits : Nat)
  | bData (d : List Nat)
  | bString (s : List Nat)
  | bUid (n : Nat)
  | bArray (xs : List BValue)
  | bDict (kvs : List (BValue × BValue))

/-- Resolve an object index through the offset table (§4.4 step 3). -/
def getOffset (mem : Nat → Nat) (len : Nat) (cfg : BCfg) (idx : Nat) : Option Nat :=
  if idx < cfg.numObjects then
    readUIntBE mem len (cfg.tableOff + idx * cfg.offSize) cfg.offSize
  else none

/-- Modelled from the spec: `PReader::readUIntSize` — the element count of
a marker: the low nibble when below the escape value 0xF, otherwise a
following integer object of `2^n` bytes (§4.4 step 4).  Returns count and
payload position. -/
def readLen (mem : Nat → Nat) (len off lo : Nat) : Option (Nat × Nat) :=
  if lo < 15 then some (lo, off + 1)
  else
    (readByte mem len (off + 1)).bind fun m2 =>
      if m2 / 16 = 1 then
        (readUIntBE mem len (off + 2) (2 ^ (m2 % 16))).map
          fun n => (n, off + 2 + 2 ^ (m2 % 16))
      else none

/-- Read `n` object references of `rs` bytes each (§4.4 step 5). -/
def readRefs (mem : Nat → Nat) (len rs : Nat) : Nat → Nat → Option (List Nat)
  | _, 0 => some []
  | i, n + 1 =>
    (readUIntBE mem len i rs).bind fun rf =>
      (readRefs mem len rs (i + rs) n).map fun rest => rf :: rest

/-- Read `n` big-endian 16-bit code units (§4.4 step 6). -/
def readU16s (mem : Nat → Nat) (len : Nat) : Nat → Nat → Option (List Nat)
  | _, 0 => some []
  | i, n + 1 =>
    (readUIntBE mem len i 2).bind fun u =>
      (readU16s mem len (i + 2) n).map fun rest => u :: rest

/-- UTF-16 big-endian code units to UTF-8 bytes, combining surrogate
pairs; a lone surrogate becomes the replacement character (§4.4 step 6). -/
def utf16ToUtf8 : List Nat → List Nat
  | [] => []
  | u1 :: rest =>
    if 55296 ≤ u1 ∧ u1 < 56320 then
      match rest with
      | u2 :: rest2 =>
        if 56320 ≤ u2 ∧ u2 < 57344 then
          utf8Encode (65536 + (u1 - 55296) * 1024 + (u2 - 56320)) ++ utf16ToUtf8 rest2
        else utf8Encode 65533 ++ utf16ToUtf8 (u2 :: rest2)
      | [] => utf8Encode 65533
    else utf8Encode u1 ++ utf16ToUtf8 rest
termination_by l => l.length
decreasing_by all_goals (simp; try omega)

mutual

/-- Modelled from the spec: `PReader::readBinaryValue` — resolve one
object by index (§4.4 steps 4-8): look its offset up in the table, read
the marker byte, dispatch on the high nibble, validate every length
against the document extent before reading, and resolve container
references recursively.  The fuel bounds the reference-chain depth: with
fuel `numObjects + 1` any longer chain repeats an object, i.e. is a
reference cycle, and the decode fails cleanly. -/
def readObj (mem : Nat → Nat) (len : Nat) (cfg : BCfg) : Nat → Nat → Option BValue
  | 0, _ => none
  | fu + 1, idx =>
    (getOffset mem len cfg idx).bind fun off =>
      (readByte mem len off).bind fun marker =>
        if marker / 16 = 0 then
          if marker = 0 then some BValue.bNull
          else if marker = 8 then some (BValue.bBool false)
          else if marker = 9 then some (BValue.bBool true)
          else none
        else if marker / 16 = 1 then
          (readUIntBE mem len (off + 1) (2 ^ (marker % 16))).map fun v =>
            BValue.bInt (toSigned v (2 ^ (marker % 16)))
        else if marker / 16 = 2 then
          (readUIntBE mem len (off + 1) (2 ^ (marker % 16))).map fun v =>
            BValue.bReal v (2 ^ (marker % 16))
        else if marker / 16 = 3 then
          if marker % 16 = 3 then (readUIntBE mem len (off + 1) 8).map BValue.bDate
          else none
        else if marker / 16 = 4 then
          (readLen mem len off (marker % 16)).bind fun p =>
            if p.2 + p.1 ≤ len then (readBytesM mem len p.2 p.1).map BValue.bData
            else none
        else if marker / 16 = 5 then
          (readLen mem len off (marker % 16)).bind fun p =>
            if p.2 + p.1 ≤ len then (readBytesM mem len p.2 p.1).map BValue.bString
            else none
        else if marker / 16 = 6 then
          (readLen mem len off (marker % 16)).bind fun p =>
            if p.2 + 2 * p.1 ≤ len then
              (readU16s mem len p.2 p.1).map fun us => BValue.bString (utf16ToUtf8 us)
            else none
        else if marker / 16 = 8 then
          (readUIntBE mem len (off + 1) (marker % 16 + 1)).map BValue.bUid
        else if marker / 16 = 10 ∨ marker / 16 = 12 then
          (readLen mem len off (marker % 16)).bind fun p =>
            if p.2 + p.1 * cfg.refSize ≤ len then
              (readRefs mem len cfg.refSize p.2 p.1).bind fun refs =>
                (mapReadObj mem len cfg fu refs).map BValue.bArray
            else none
        else if marker / 16 = 13 then
          (readLen mem len off (marker % 16)).bind fun p =>
            if p.2 + 2 * (p.1 * cfg.refSize) ≤ len then
              (readRefs mem len cfg.refSize p.2 p.1).bind fun krefs =>
                (readRefs mem len cfg.refSize (p.2 + p.1 * cfg.refSize) p.1).bind
                  fun vrefs =>
                    (mapReadObj mem len cfg fu krefs).bind fun ks =>
                      (mapReadObj mem len cfg fu vrefs).map fun vs =>
                        BValue.bDict (ks.zip vs)
            else none
        else none
termination_by fu _ => (fu, 0)

/-- Resolve a run of object references recursively. -/
def mapReadObj (mem : Nat → Nat) (len : Nat) (cfg : BCfg) :
    Nat → List Nat → Option (List BValue)
  | _, [] => some []
  | fu, i :: is_ =>
    (readObj mem len cfg fu i).bind fun b =>
      (mapReadObj mem len cfg fu is_).map fun bs => b :: bs
termination_by fu l => (fu, l.length + 1)

end

namespace PReader

/-- Modelled from the spec: `PReader::parseBinary` (§4.4) — validate the
8-byte `bplist00` magic and the 32-byte trailer (failing cleanly when the
buffer cannot contain both), read the trailer fields (reserved bytes,
then the offset-entry width, reference width, and three 8-byte big-endian
fields: object count, root index, offset-table position), validate the
widths, the root index, and that the whole offset table lies inside the
document body (§8: a count times width exceeding the buffer fails), then
resolve the object graph from the root. -/
def parseBinary (mem : Nat → Nat) (len : Nat) : Option BValue :=
  if 40 ≤ len then
    (readBytesM mem len 0 8).bind fun magic =>
      if magic = [98, 112, 108, 105, 115, 116, 48, 48] then
        (readByte mem len (len - 32 + 6)).bind fun offSize =>
          (readByte mem len (len - 32 + 7)).bind fun refSize =>
            (readUIntBE mem len (len - 32 + 8) 8).bind fun numObjects =>
              (readUIntBE mem len (len - 32 + 16) 8).bind fun rootIdx =>
                (readUIntBE mem len (len - 32 + 24) 8).bind fun tableOff =>
                  if 1 ≤ offSize ∧ offSize ≤ 8 ∧ 1 ≤ refSize ∧ refSize ≤ 8
                      ∧ 0 < numObjects ∧ rootIdx < numObjects
                      ∧ 9 ≤ tableOff
                      ∧ tableOff + numObjects * offSize ≤ len - 32 then
                    readObj mem len ⟨offSize, refSize, numObjects, tableOff⟩
                      (numObjects + 1) rootIdx
                  else none
      else none
  else none

end PReader

-- ————————————————————————————————————————————————————————————————————
-- Theorems
-- ————————————————————————————————————————————————————————————————————

theorem cstrNorm_nil : cstrNorm [] = [] := rfl

theorem cstrNorm_cons (x : Nat) (xs : List Nat) :
    cstrNorm (x :: xs) = if x % 256 = 0 then [] else (x % 256) :: cstrNorm xs := by
  by_cases hx : x % 256 = 0 <;> simp [cstrNorm, hx]

/-- `strcmp` vanishes exactly on byte lists that denote the same C string
(equal after truncation at the first NUL and reduction mod 256). -/
theorem strcmp_eq_zero_iff (a b : List Nat) : strcmp a b = 0 ↔ cstrNorm a = cstrNorm b := by
  induction a generalizing b with
  | nil =>
    cases b with
    | nil => simp [strcmp]
    | cons y ys =>
      rw [show strcmp [] (y :: ys) = if y % 256 = 0 then 0 else -((y : Int) % 256) from rfl,
        cstrNorm_nil, cstrNorm_cons]
      by_cases hy : y % 256 = 0
      · simp [hy]
      · rw [if_neg hy, if_neg hy]
        constructor
        · intro h; exfalso; omega
        · intro h; exact absurd h (by simp)
  | cons x xs ih =>
    cases b with
    | nil =>
      rw [show strcmp (x :: xs) [] = if x % 256 = 0 then 0 else ((x : Int) % 256) from rfl,
        cstrNorm_nil, cstrNorm_cons]
      by_cases hx : x % 256 = 0
      · simp [hx]
      · rw [if_neg hx, if_neg hx]
        constructor
        · intro h; exfalso; omega
        · intro h; exact absurd h (by simp)
    | cons y ys =>
      rw [show strcmp (x :: xs) (y :: ys) =
            (if x % 256 = 0 ∧ y % 256 = 0 then 0
             else if x % 256 = y % 256 then strcmp xs ys
             else (x : Int) % 256 - (y : Int) % 256) from rfl,
        cstrNorm_cons, cstrNorm_cons]
      by_cases hx : x % 256 = 0 <;> by_cases hy : y % 256 = 0
      · simp [hx, hy]
      · rw [if_neg (by tauto), if_pos hx, if_neg hy, if_neg (by omega)]
        constructor
        · intro h; exfalso; omega
        · intro h; exact absurd h (by simp)
      · rw [if_neg (by tauto), if_neg hx, if_pos hy, if_neg (by omega)]
        constructor
        · intro h; exfalso; omega
        · intro h; exact absurd h (by simp)
      · rw [if_neg (by tauto), if_neg hx, if_neg hy]
        by_cases hxy : x % 256 = y % 256
        · rw [if_pos hxy, hxy]
          rw [ih ys]
          constructor
          · intro h; rw [h]
          · intro h; exact (List.cons.injEq _ _ _ _).mp h |>.2
        · rw [if_neg hxy]
          constructor
          · intro h; exfalso; omega
          · intro h
            exfalso
            exact hxy ((List.cons.injEq _ _ _ _).mp h).1

/-- C2: every coercion accessor of `JValue` (`asInt`, `asBool`, `asFloat`,
`asInt64`, `asString`, `asDate`, `asData`) is a total Lean function on
every `JValue` (totality is intrinsic to the definitions), and when the
node's active type does not match the requested kind it returns that
kind's zero/empty value: 0, false, 0.0, empty string, epoch date, empty
blob. -/
theorem coercion_accessors_total_default (v : JValue) :
    (v.type ≠ TYPE.E_INT → v.asInt = 0) ∧
    (v.type ≠ TYPE.E_BOOL → v.asBool = false) ∧
    (v.type ≠ TYPE.E_FLOAT → v.asFloat = (0, 0)) ∧
    (v.type ≠ TYPE.E_INT → v.asInt64 = 0) ∧
    (v.type ≠ TYPE.E_STRING → v.asString = []) ∧
    (v.type ≠ TYPE.E_DATE → v.asDate = 0) ∧
    (v.type ≠ TYPE.E_DATA → v.asData = []) := by
  cases v <;>
    simp [JValue.type, JValue.asInt, JValue.asBool, JValue.asFloat, JValue.asInt64,
      JValue.asString, JValue.asDate, JValue.asData]

/-- Witness for C2: the accessors at concrete mismatched inputs. -/
theorem coercion_accessors_total_default_witness :
    (JValue.jBool true).asInt = 0 ∧ (JValue.jInt 7).asString = [] := by
  constructor
  · exact (coercion_accessors_total_default (JValue.jBool true)).1 (by decide)
  · exact (coercion_accessors_total_default (JValue.jInt 7)).2.2.2.2.1 (by decide)

/-- C5: every state reachable through the public lifecycle (construction,
assignment, mutation, clear, adoption of a parse result) has its stored
tag `m_eType` consistent with the active arm of the union `m_Value`; and
scalar assignment discards the previous representation — its result does
not depend on the previous state at all. -/
theorem tag_union_consistent (s : JValueS) (h : JValueS.Reachable s) :
    s.consistent ∧
    (∀ s₁ s₂ : JValueS, ∀ n : Int, JValueS.opAssignInt s₁ n = JValueS.opAssignInt s₂ n) ∧
    (∀ s₁ s₂ : JValueS, ∀ str : List Nat,
      JValueS.opAssignString s₁ str = JValueS.opAssignString s₂ str) ∧
    (∀ s₁ s₂ : JValueS, JValueS.clearS s₁ = JValueS.clearS s₂) := by
  refine ⟨?_, fun _ _ _ => rfl, fun _ _ _ => rfl, fun _ _ => rfl⟩
  induction h with
  | ofCtorType t => cases t <;> rfl
  | ofCtorInt n => rfl
  | ofCtorBool b => rfl
  | ofCtorFloat m e => rfl
  | ofCtorString s => rfl
  | ofAssignInt s n _ _ => rfl
  | ofAssignBool s b _ _ => rfl
  | ofAssignFloat s m e _ _ => rfl
  | ofAssignString s str _ _ => rfl
  | ofAssignCopy s src _ _ _ ih2 => exact ih2
  | ofClear s _ _ => rfl
  | ofAssignData s d _ _ => rfl
  | ofAssignDate s t _ _ => rfl
  | ofTree v => cases v <;> rfl

/-- Witness for C5: a concrete reachable state (an integer assigned over a
string constructor) is consistent. -/
theorem tag_union_consistent_witness :
    (JValueS.opAssignInt (JValueS.ctorString [97]) 5).consistent :=
  (tag_union_consistent _
    (JValueS.Reachable.ofAssignInt _ 5 (JValueS.Reachable.ofCtorString [97]))).1

/-- C6: indexing an Object by an absent string key inserts a Null entry at
that key and returns a reference to it; and starting from a fresh node,
`v["a"]=1; v["b"]=2;` yields `size()==2`, `has("a")`, `has("b")`, and
`!has("c")` (keys as their byte strings). -/
theorem object_index_absent_inserts_null :
    (∀ kvs k, JValue.lookupKV kvs k = none →
      JValue.atKey (JValue.jObject kvs) k
        = (JValue.jObject (JValue.insertKV kvs k JValue.jNull), JValue.jNull)) ∧
    ((JValue.setKey (JValue.setKey JValue.jNull [97] (JValue.jInt 1)) [98]
        (JValue.jInt 2)).size = 2 ∧
     (JValue.setKey (JValue.setKey JValue.jNull [97] (JValue.jInt 1)) [98]
        (JValue.jInt 2)).has [97] = true ∧
     (JValue.setKey (JValue.setKey JValue.jNull [97] (JValue.jInt 1)) [98]
        (JValue.jInt 2)).has [98] = true ∧
     (JValue.setKey (JValue.setKey JValue.jNull [97] (JValue.jInt 1)) [98]
        (JValue.jInt 2)).has [99] = false) := by
  refine ⟨fun kvs k h => ?_, rfl, rfl, rfl, rfl⟩
  simp [JValue.atKey, h]

/-- Witness for C6: inserting into a concrete Object with the key absent. -/
theorem object_index_absent_inserts_null_witness :
    JValue.atKey (JValue.jObject []) [97]
      = (JValue.jObject [([97], JValue.jNull)], JValue.jNull) :=
  object_index_absent_inserts_null.1 [] [97] rfl

/-- C7: `remove(key)` on an Object whose key is absent returns false and
leaves the node completely unchanged; and `remove(index|key)` returns
false (leaving the node unchanged) whenever the node is not the matching
container kind or the index does not exist. -/
theorem remove_absent_returns_false_unchanged (v : JValue) (k : List Nat) (i : Nat) :
    (v.type = TYPE.E_OBJECT → v.has k = false → v.removeKey k = (false, v)) ∧
    (v.type ≠ TYPE.E_OBJECT → v.removeKey k = (false, v)) ∧
    (v.type ≠ TYPE.E_ARRAY → v.removeIdx i = (false, v)) ∧
    (∀ xs, v = JValue.jArray xs → xs.length ≤ i → v.removeIdx i = (false, v)) := by
  refine ⟨?_, ?_, ?_, ?_⟩
  · intro ht hk
    cases v <;> simp [JValue.type] at ht
    simp only [JValue.has] at hk
    simp [JValue.removeKey, hk]
  · intro ht
    cases v <;> simp [JValue.type] at ht <;> rfl
  · intro ht
    cases v <;> simp [JValue.type] at ht <;> rfl
  · intro xs hx hlen
    subst hx
    simp [JValue.removeIdx, Nat.not_lt.mpr hlen]

/-- Witness for C7: removing an absent key from a concrete Object. -/
theorem remove_absent_returns_false_unchanged_witness :
    (JValue.jObject [([97], JValue.jInt 1)]).removeKey [98]
      = (false, JValue.jObject [([97], JValue.jInt 1)]) :=
  (remove_absent_returns_false_unchanged (JValue.jObject [([97], JValue.jInt 1)]) [98] 0).1
    rfl rfl

/-- Counterexample to C8 as stated: the Null node is not an Array (so it
is "not a container of the matching kind" for integer indexing), yet
integer-indexing it does mutate it — auto-vivification converts it to an
Array (spec §4.1) — instead of returning the sentinel with no mutation. -/
theorem index_wrong_kind_counterexample :
    JValue.type JValue.jNull ≠ TYPE.E_ARRAY ∧
    (JValue.atIdx JValue.jNull 0).1 ≠ JValue.jNull := by
  constructor
  · decide
  · intro h
    exact JValue.noConfusion h

/-- C8 (amended): for every non-Null node that is not a container of the
matching kind, `at`/`operator[]` with the wrong index kind returns the
process-wide Null sentinel and performs no mutation of the node. -/
theorem index_wrong_kind_null_sentinel (v : JValue) (k : List Nat) (i : Nat)
    (hn : v.type ≠ TYPE.E_NULL) :
    (v.type ≠ TYPE.E_OBJECT → JValue.atKey v k = (v, JValue.nullSentinel)) ∧
    (v.type ≠ TYPE.E_ARRAY → JValue.atIdx v i = (v, JValue.nullSentinel)) := by
  constructor
  · intro ho
    cases v <;> first
      | (exfalso; exact hn rfl)
      | (exfalso; exact ho rfl)
      | rfl
  · intro ha
    cases v <;> first
      | (exfalso; exact hn rfl)
      | (exfalso; exact ha rfl)
      | rfl

/-- Witness for C8 (amended): a scalar indexed by key and by integer. -/
theorem index_wrong_kind_null_sentinel_witness :
    JValue.atKey (JValue.jInt 5) [97] = (JValue.jInt 5, JValue.nullSentinel) ∧
    JValue.atIdx (JValue.jInt 5) 0 = (JValue.jInt 5, JValue.nullSentinel) := by
  constructor
  · exact (index_wrong_kind_null_sentinel (JValue.jInt 5) [97] 0 (by decide)).1 (by decide)
  · exact (index_wrong_kind_null_sentinel (JValue.jInt 5) [97] 0 (by decide)).2 (by decide)

/-- C10: for every `JValue` and C string, `jv == psz` and `psz == jv` hold
exactly when `strcmp(jv.asCString(), psz) == 0`, `jv != psz` (and the
mirrored form) is the exact negation, and the comparison is equivalently a
comparison of the coerced C-string form of the node — for a non-String
node, of the empty-string coercion — with the given C string. -/
theorem cstring_equality_operators (jv : JValue) (psz : List Nat) :
    (jv.eqCStr psz = true ↔ strcmp jv.asCString psz = 0) ∧
    JValue.cStrEq psz jv = jv.eqCStr psz ∧
    jv.neCStr psz = !(jv.eqCStr psz) ∧
    JValue.cStrNe psz jv = !(jv.eqCStr psz) ∧
    (jv.eqCStr psz = true ↔ cstrNorm jv.asCString = cstrNorm psz) ∧
    (jv.type ≠ TYPE.E_STRING → jv.asCString = []) := by
  refine ⟨?_, rfl, rfl, rfl, ?_, ?_⟩
  · simp [JValue.eqCStr]
  · rw [show (jv.eqCStr psz = true ↔ strcmp jv.asCString psz = 0) from by
      simp [JValue.eqCStr]]
    exact strcmp_eq_zero_iff _ _
  · intro h
    cases jv <;> first
      | (exfalso; exact h rfl)
      | rfl

/-- Witness for C10: a non-String node compares equal to the empty C
string through its coerced C-string form. -/
theorem cstring_equality_operators_witness :
    (JValue.jInt 3).asCString = [] ∧ (JValue.jInt 3).eqCStr [] = true := by
  constructor
  · exact (cstring_equality_operators (JValue.jInt 3) []).2.2.2.2.2 (by decide)
  · exact ((cstring_equality_operators (JValue.jInt 3) []).1).mpr rfl

theorem skipLineComment_len (s : List Nat) : (skipLineComment s).length ≤ s.length := by
  induction s with
  | nil => simp [skipLineComment]
  | cons c r ih =>
    by_cases hc : c = 10
    · simp [skipLineComment, hc]
    · simp only [skipLineComment, if_neg hc, List.length_cons]
      omega

theorem skipBlockComment_len (s : List Nat) : (skipBlockComment s).length ≤ s.length := by
  induction s with
  | nil => simp [skipBlockComment]
  | cons c r ih =>
    cases r with
    | nil => simp [skipBlockComment]
    | cons c2 r2 =>
      by_cases h : c = 42 ∧ c2 = 47
      · simp only [skipBlockComment, if_pos h, List.length_cons]
        omega
      · simp only [skipBlockComment, if_neg h, List.length_cons]
        simp only [List.length_cons] at ih
        omega

theorem skipWsF_len : ∀ (fu : Nat) (s : List Nat), (skipWsF fu s).length ≤ s.length := by
  intro fu
  induction fu with
  | zero => intro s; simp [skipWsF]
  | succ fu ih =>
    intro s
    cases s with
    | nil => simp [skipWsF]
    | cons c rest =>
      simp only [skipWsF]
      by_cases h1 : c = 32 ∨ c = 9 ∨ c = 10 ∨ c = 13
      · rw [if_pos h1]
        have := ih rest
        simp only [List.length_cons]
        omega
      · rw [if_neg h1]
        by_cases h2 : c = 47
        · rw [if_pos h2]
          cases rest with
          | nil => simp
          | cons c2 r2 =>
            dsimp only
            by_cases h3 : c2 = 47
            · rw [if_pos h3]
              have ha := ih (skipLineComment r2)
              have hb := skipLineComment_len r2
              simp only [List.length_cons]
              omega
            · rw [if_neg h3]
              by_cases h4 : c2 = 42
              · rw [if_pos h4]
                have ha := ih (skipBlockComment r2)
                have hb := skipBlockComment_len r2
                simp only [List.length_cons]
                omega
              · rw [if_neg h4]
        · rw [if_neg h2]

theorem skipWs_len (s : List Nat) : (skipWs s).length ≤ s.length := skipWsF_len _ s

theorem dropWhile_len (p : Nat → Bool) (l : List Nat) :
    (l.dropWhile p).length ≤ l.length := by
  induction l with
  | nil => simp
  | cons c r ih =>
    by_cases hc : p c
    · simp only [List.dropWhile_cons, hc, if_true, List.length_cons]
      omega
    · simp [List.dropWhile_cons, hc]

theorem readHex4_len (l : List Nat) (cp : Nat) (r : List Nat)
    (h : readHex4 l = some (cp, r)) : r.length + 4 = l.length := by
  match l with
  | [] => simp [readHex4] at h
  | [_] => simp [readHex4] at h
  | [_, _] => simp [readHex4] at h
  | [_, _, _] => simp [readHex4] at h
  | a :: b :: c :: d :: rr =>
    simp only [readHex4, Option.bind_eq_bind] at h
    cases ha : hexVal a <;> rw [ha] at h <;> simp only [Option.none_bind, Option.some_bind] at h
    · exact absurd h (by simp)
    cases hb : hexVal b <;> rw [hb] at h <;> simp only [Option.none_bind, Option.some_bind] at h
    · exact absurd h (by simp)
    cases hc : hexVal c <;> rw [hc] at h <;> simp only [Option.none_bind, Option.some_bind] at h
    · exact absurd h (by simp)
    cases hd : hexVal d <;> rw [hd] at h <;> simp only [Option.none_bind, Option.some_bind] at h
    · exact absurd h (by simp)
    · simp only [Option.some.injEq, Prod.mk.injEq] at h
      rw [← h.2]
      simp

theorem resLen_of_le {α : Type} {x : Except PErr (α × List Nat)} {r s : List Nat}
    (h : ResLen r x) (hle : r.length ≤ s.length) : ResLen s x := by
  cases x with
  | ok p =>
    simp only [ResLen] at h ⊢
    omega
  | error e =>
    simp only [ResLen] at h ⊢
    exact ⟨h.1, by omega⟩

theorem resLen_map {α β : Type} {x : Except PErr (α × List Nat)} {s : List Nat}
    (g : α → β) (h : ResLen s x) :
    ResLen s (x.map (fun p => (g p.1, p.2))) := by
  cases x with
  | ok p => simpa [ResLen, Except.map] using h
  | error e => simpa [ResLen, Except.map] using h

theorem resLen_bind {α β : Type} {x : Except PErr (α × List Nat)} {s : List Nat}
    {f : α × List Nat → Except PErr (β × List Nat)}
    (hx : ResLen s x) (hf : ∀ p, x = .ok p → ResLen s (f p)) :
    ResLen s (x.bind f) := by
  cases x with
  | ok p => simpa [Except.bind] using hf p rfl
  | error e => simpa [ResLen, Except.bind] using hx

theorem parseStrF_resLen : ∀ (fu : Nat) (s : List Nat), ResLen s (parseStrF fu s) := by
  intro fu
  induction fu with
  | zero => intro s; exact ⟨by simp, le_rfl⟩
  | succ fu ih =>
    intro s
    cases s with
    | nil => exact ⟨by simp, by simp⟩
    | cons c rest =>
      simp only [parseStrF]
      by_cases h34 : c = 34
      · rw [if_pos h34]
        show rest.length ≤ (c :: rest).length
        simp
      · rw [if_neg h34]
        by_cases h92 : c = 92
        · rw [if_pos h92]
          cases rest with
          | nil => exact ⟨by simp, by simp⟩
          | cons e1 r2 =>
            dsimp only
            by_cases hq : e1 = 34 ∨ e1 = 92 ∨ e1 = 47
            · rw [if_pos hq]
              exact resLen_of_le (resLen_map _ (ih r2))
                (by simp only [List.length_cons]; omega)
            · rw [if_neg hq]
              by_cases h98 : e1 = 98
              · rw [if_pos h98]
                exact resLen_of_le (resLen_map _ (ih r2))
                  (by simp only [List.length_cons]; omega)
              · rw [if_neg h98]
                by_cases h102 : e1 = 102
                · rw [if_pos h102]
                  exact resLen_of_le (resLen_map _ (ih r2))
                    (by simp only [List.length_cons]; omega)
                · rw [if_neg h102]
                  by_cases h110 : e1 = 110
                  · rw [if_pos h110]
                    exact resLen_of_le (resLen_map _ (ih r2))
                      (by simp only [List.length_cons]; omega)
                  · rw [if_neg h110]
                    by_cases h114 : e1 = 114
                    · rw [if_pos h114]
                      exact resLen_of_le (resLen_map _ (ih r2))
                        (by simp only [List.length_cons]; omega)
                    · rw [if_neg h114]
                      by_cases h116 : e1 = 116
                      · rw [if_pos h116]
                        exact resLen_of_le (resLen_map _ (ih r2))
                          (by simp only [List.length_cons]; omega)
                      · rw [if_neg h116]
                        by_cases h117 : e1 = 117
                        · rw [if_pos h117]
                          cases hhex : readHex4 r2 with
                          | none =>
                            exact ⟨by simp, by simp only [List.length_cons]; omega⟩
                          | some pair =>
                            obtain ⟨cp, r3⟩ := pair
                            dsimp only
                            have hr3 : r3.length + 4 = r2.length := readHex4_len r2 cp r3 hhex
                            by_cases hsur : 55296 ≤ cp ∧ cp ≤ 56319
                            · rw [if_pos hsur]
                              split
                              · rename_i r4
                                simp only [List.length_cons] at hr3
                                cases hhex2 : readHex4 r4 with
                                | none =>
                                  refine ⟨by simp, ?_⟩
                                  simp only [List.length_cons]
                                  omega
                                | some pair2 =>
                                  obtain ⟨cp2, r5⟩ := pair2
                                  dsimp only
                                  have hr5 : r5.length + 4 = r4.length :=
                                    readHex4_len r4 cp2 r5 hhex2
                                  by_cases hsur2 : 56320 ≤ cp2 ∧ cp2 ≤ 57343
                                  · rw [if_pos hsur2]
                                    refine resLen_of_le (resLen_map _ (ih r5)) ?_
                                    simp only [List.length_cons]
                                    omega
                                  · rw [if_neg hsur2]
                                    refine ⟨by simp, ?_⟩
                                    simp only [List.length_cons]
                                    omega
                              · refine ⟨by simp, ?_⟩
                                simp only [List.length_cons]
                                omega
                            · rw [if_neg hsur]
                              refine resLen_of_le (resLen_map _ (ih r3)) ?_
                              simp only [List.length_cons]
                              omega
                        · rw [if_neg h117]
                          exact ⟨by simp, by simp only [List.length_cons]; omega⟩
        · rw [if_neg h92]
          exact resLen_of_le (resLen_map _ (ih rest))
            (by simp only [List.length_cons]; omega)

theorem parse_resLen : ∀ fu : Nat,
    (∀ s, ResLen s (parseVal fu s)) ∧
    (∀ s, ResLen s (parseElems fu s)) ∧
    (∀ acc s, ResLen s (parseMembs fu acc s)) := by
  intro fu
  induction fu with
  | zero =>
    exact ⟨fun s => ⟨by simp, le_rfl⟩, fun s => ⟨by simp, le_rfl⟩,
      fun acc s => ⟨by simp, le_rfl⟩⟩
  | succ fu ih =>
    obtain ⟨ihV, ihE, ihM⟩ := ih
    refine ⟨?_, ?_, ?_⟩
    · intro s
      simp only [parseVal]
      cases hws : skipWs s with
      | nil => exact ⟨by simp, by simp⟩
      | cons c rest =>
        have hlen : rest.length + 1 ≤ s.length := by
          have h := skipWs_len s
          rw [hws] at h
          simpa using h
        dsimp only
        by_cases h110 : c = 110
        · rw [if_pos h110]
          split
          · rename_i r
            show r.length ≤ s.length
            simp only [List.length_cons] at hlen
            omega
          · exact ⟨by simp, by simpa using hlen⟩
        · rw [if_neg h110]
          by_cases h116 : c = 116
          · rw [if_pos h116]
            split
            · rename_i r
              show r.length ≤ s.length
              simp only [List.length_cons] at hlen
              omega
            · exact ⟨by simp, by simpa using hlen⟩
          · rw [if_neg h116]
            by_cases h102 : c = 102
            · rw [if_pos h102]
              split
              · rename_i r
                show r.length ≤ s.length
                simp only [List.length_cons] at hlen
                omega
              · exact ⟨by simp, by simpa using hlen⟩
            · rw [if_neg h102]
              by_cases h34 : c = 34
              · rw [if_pos h34]
                refine resLen_of_le
                  (resLen_map _ (parseStrF_resLen (rest.length + 1) rest)) ?_
                omega
              · rw [if_neg h34]
                by_cases h91 : c = 91
                · rw [if_pos h91]
                  cases hws2 : skipWs rest with
                  | nil => exact ⟨by simp, by simp⟩
                  | cons c2 r2 =>
                    have hlen2 : r2.length + 1 ≤ rest.length := by
                      have h := skipWs_len rest
                      rw [hws2] at h
                      simpa using h
                    dsimp only
                    by_cases h93 : c2 = 93
                    · rw [if_pos h93]
                      show r2.length ≤ s.length
                      omega
                    · rw [if_neg h93]
                      refine resLen_of_le (resLen_map _ (ihE (c2 :: r2))) ?_
                      simp only [List.length_cons]
                      omega
                · rw [if_neg h91]
                  by_cases h123 : c = 123
                  · rw [if_pos h123]
                    cases hws2 : skipWs rest with
                    | nil => exact ⟨by simp, by simp⟩
                    | cons c2 r2 =>
                      have hlen2 : r2.length + 1 ≤ rest.length := by
                        have h := skipWs_len rest
                        rw [hws2] at h
                        simpa using h
                      dsimp only
                      by_cases h125 : c2 = 125
                      · rw [if_pos h125]
                        show r2.length ≤ s.length
                        omega
                      · rw [if_neg h125]
                        refine resLen_of_le (ihM [] (c2 :: r2)) ?_
                        simp only [List.length_cons]
                        omega
                  · rw [if_neg h123]
                    by_cases hnum : (isDigitB c || c == 45) = true
                    · rw [if_pos hnum]
                      cases hdn : decodeNumber ((c :: rest).takeWhile isNumChar) with
                      | none => exact ⟨by simp, by simpa using hlen⟩
                      | some v =>
                        dsimp only
                        show ((c :: rest).dropWhile isNumChar).length ≤ s.length
                        have hd := dropWhile_len isNumChar (c :: rest)
                        simp only [List.length_cons] at hd
                        omega
                    · rw [if_neg hnum]
                      exact ⟨by simp, by simpa using hlen⟩
    · intro s
      simp only [parseElems]
      refine resLen_bind (ihV s) ?_
      intro p hp
      have hplen : p.2.length ≤ s.length := by
        have h := ihV s
        rw [hp] at h
        exact h
      cases hws : skipWs p.2 with
      | nil => exact ⟨by simp, by simp⟩
      | cons c r =>
        have hlen2 : r.length + 1 ≤ p.2.length := by
          have h := skipWs_len p.2
          rw [hws] at h
          simpa using h
        dsimp only
        by_cases h44 : c = 44
        · rw [if_pos h44]
          refine resLen_of_le (resLen_map _ (ihE r)) ?_
          omega
        · rw [if_neg h44]
          by_cases h93 : c = 93
          · rw [if_pos h93]
            show r.length ≤ s.length
            omega
          · rw [if_neg h93]
            exact ⟨by simp, by simp only [List.length_cons]; omega⟩
    · intro acc s
      simp only [parseMembs]
      cases hws : skipWs s with
      | nil => exact ⟨by simp, by simp⟩
      | cons c rest =>
        have hlen : rest.length + 1 ≤ s.length := by
          have h := skipWs_len s
          rw [hws] at h
          simpa using h
        dsimp only
        by_cases h34 : c = 34
        · rw [if_pos h34]
          refine resLen_bind
            (resLen_of_le (parseStrF_resLen (rest.length + 1) rest) (by omega)) ?_
          intro kp hkp
          have hkplen : kp.2.length ≤ rest.length := by
            have h := parseStrF_resLen (rest.length + 1) rest
            rw [hkp] at h
            exact h
          cases hws2 : skipWs kp.2 with
          | nil => exact ⟨by simp, by simp⟩
          | cons c2 r2 =>
            have hlen2 : r2.length + 1 ≤ kp.2.length := by
              have h := skipWs_len kp.2
              rw [hws2] at h
              simpa using h
            dsimp only
            by_cases h58 : c2 = 58
            · rw [if_pos h58]
              refine resLen_bind (resLen_of_le (ihV r2) (by omega)) ?_
              intro vp hvp
              have hvplen : vp.2.length ≤ r2.length := by
                have h := ihV r2
                rw [hvp] at h
                exact h
              cases hws3 : skipWs vp.2 with
              | nil => exact ⟨by simp, by simp⟩
              | cons c3 r3 =>
                have hlen3 : r3.length + 1 ≤ vp.2.length := by
                  have h := skipWs_len vp.2
                  rw [hws3] at h
                  simpa using h
                dsimp only
                by_cases h44 : c3 = 44
                · rw [if_pos h44]
                  exact resLen_of_le (ihM (JValue.insertKV acc kp.1 vp.1) r3) (by omega)
                · rw [if_neg h44]
                  by_cases h125 : c3 = 125
                  · rw [if_pos h125]
                    show r3.length ≤ s.length
                    omega
                  · rw [if_neg h125]
                    exact ⟨by simp, by simp only [List.length_cons]; omega⟩
            · rw [if_neg h58]
              exact ⟨by simp, by simp only [List.length_cons]; omega⟩
        · rw [if_neg h34]
          exact ⟨by simp, by simpa using hlen⟩

/-- C4: whenever `JReader::parse` fails it reports failure with a
retrievable non-empty descriptive message and an exact byte offset (the
offset plus the unconsumed remainder's length equals the document length);
in particular parsing `{"a":}` fails at the first malformed token, with
the reported offset 5 pointing at the unexpected `}` and a non-empty
message. -/
theorem parse_failure_reporting :
    (∀ s e, JReader.parse s = .error e →
      e.msg ≠ "" ∧ JReader.errOffset s e + e.rest.length = s.length) ∧
    (JReader.parse [123, 34, 97, 34, 58, 125]
      = .error ⟨[125], "value expected"⟩ ∧
     JReader.errOffset [123, 34, 97, 34, 58, 125] ⟨[125], "value expected"⟩ = 5) := by
  refine ⟨?_, rfl, rfl⟩
  intro s e h
  unfold JReader.parse at h
  cases hv : parseVal (s.length + 1) s with
  | ok p => rw [hv] at h; exact absurd h (by simp [Except.map])
  | error e2 =>
    rw [hv] at h
    simp only [Except.map, Except.error.injEq] at h
    subst h
    have hr := (parse_resLen (s.length + 1)).1 s
    rw [hv] at hr
    obtain ⟨h1, h2⟩ := hr
    refine ⟨h1, ?_⟩
    unfold JReader.errOffset
    omega

/-- Witness for C4: a concrete failing document (a lone `[`). -/
theorem parse_failure_reporting_witness :
    JReader.parse [91] = .error ⟨[], "value expected"⟩ ∧
    ("value expected" ≠ "" ∧
     JReader.errOffset [91] ⟨[], "value expected"⟩ + 0 = 1) := by
  refine ⟨rfl, ?_⟩
  have h := parse_failure_reporting.1 [91] ⟨[], "value expected"⟩ rfl
  simpa using h

theorem takeWhile_append_of_all (p : Nat → Bool) (xs ys : List Nat)
    (h : ∀ x ∈ xs, p x = true) :
    (xs ++ ys).takeWhile p = xs ++ ys.takeWhile p := by
  induction xs with
  | nil => simp
  | cons a l ih =>
    rw [List.cons_append, List.takeWhile_cons_of_pos (h a (by simp)),
      ih (fun x hx => h x (List.mem_cons_of_mem _ hx)), List.cons_append]

theorem dropWhile_append_of_all (p : Nat → Bool) (xs ys : List Nat)
    (h : ∀ x ∈ xs, p x = true) :
    (xs ++ ys).dropWhile p = ys.dropWhile p := by
  induction xs with
  | nil => simp
  | cons a l ih =>
    rw [List.cons_append, List.dropWhile_cons_of_pos (h a (by simp)),
      ih (fun x hx => h x (List.mem_cons_of_mem _ hx))]

theorem splitSign_decomp (tok : List Nat) :
    tok = (if (splitSign tok).1 then [45] else []) ++ (splitSign tok).2 := by
  cases tok with
  | nil => rfl
  | cons c r =>
    by_cases h : c = 45
    · simp [splitSign, h]
    · simp [splitSign, h]

/-- C9: whenever the numeric decoder accepts a number token,
`decodeNumber` produces an Integer representation unless the token
contains a decimal point or an exponent marker or its plain decimal value
overflows a signed 64-bit integer, in which case a Float representation
is produced (the `decodeDouble` path); an Integer result carries exactly
the token's decimal value.  The decode is a pure function of the token
bytes, so it is locale-independent by construction. -/
theorem decode_number_integer_unless (tok : List Nat) (v : JValue)
    (h : decodeNumber tok = some v) :
    v.type = (if hasDotOrExp tok || !inInt64 (plainIntVal tok)
              then TYPE.E_FLOAT else TYPE.E_INT) ∧
    (v.type = TYPE.E_INT → v = JValue.jInt (plainIntVal tok)) := by
  unfold decodeNumber at h
  by_cases hds : (splitSign tok).2.takeWhile isDigitB = []
  · rw [if_pos hds] at h
    exact absurd h (by simp)
  · rw [if_neg hds] at h
    have hsplit := splitSign_decomp tok
    have htdw := List.takeWhile_append_dropWhile isDigitB (splitSign tok).2
    have hpe : plainIntVal tok
        = applySign (splitSign tok).1 (digitsVal ((splitSign tok).2.takeWhile isDigitB)) := rfl
    cases hr2 : (splitSign tok).2.dropWhile isDigitB with
    | nil =>
      rw [hr2] at h
      dsimp only at h
      rw [← hpe] at h
      have hnone : hasDotOrExp tok = false := by
        unfold hasDotOrExp
        rw [List.any_eq_false]
        intro x hx
        rw [hsplit] at hx
        rcases List.mem_append.mp hx with h1 | h2
        · by_cases hb : (splitSign tok).1
          · rw [if_pos hb] at h1
            simp only [List.mem_singleton] at h1
            subst h1
            simp
          · rw [if_neg hb] at h1
            simp at h1
        · rw [← htdw, hr2, List.append_nil] at h2
          have hdig := List.mem_takeWhile_imp h2
          simp only [isDigitB, Bool.and_eq_true, decide_eq_true_eq] at hdig
          simp only [Bool.or_eq_true, beq_iff_eq, not_or]
          omega
      rw [hnone]
      simp only [Bool.false_or]
      by_cases hin : inInt64 (plainIntVal tok) = true
      · rw [if_pos hin] at h
        simp only [Option.some.injEq] at h
        subst h
        exact ⟨by rw [hin]; simp [JValue.type], fun _ => rfl⟩
      · rw [if_neg hin] at h
        simp only [Option.some.injEq] at h
        subst h
        have hin' : inInt64 (plainIntVal tok) = false := by
          revert hin
          cases inInt64 (plainIntVal tok) <;> simp
        refine ⟨by rw [hin']; simp [JValue.type], fun hty => absurd hty (by simp [JValue.type])⟩
    | cons c r3 =>
      rw [hr2] at h
      dsimp only at h
      have hcmem : c ∈ tok := by
        rw [hsplit]
        refine List.mem_append.mpr (Or.inr ?_)
        rw [← htdw, hr2]
        exact List.mem_append.mpr (Or.inr (List.mem_cons_self c r3))
      by_cases h46 : c = 46
      · have hany : hasDotOrExp tok = true := by
          unfold hasDotOrExp
          rw [List.any_eq_true]
          exact ⟨c, hcmem, by simp [h46]⟩
        have hcond : (hasDotOrExp tok || !inInt64 (plainIntVal tok)) = true := by
          rw [hany]
          simp
        rw [if_pos h46] at h
        by_cases hfs : r3.takeWhile isDigitB = []
        · rw [if_pos hfs] at h
          exact absurd h (by simp)
        · rw [if_neg hfs] at h
          cases hr4 : r3.dropWhile isDigitB with
          | nil =>
            rw [hr4] at h
            dsimp only at h
            simp only [Option.some.injEq] at h
            subst h
            rw [if_pos hcond]
            exact ⟨rfl, fun hty => absurd hty (by simp [JValue.type])⟩
          | cons c2 r5 =>
            rw [hr4] at h
            dsimp only at h
            by_cases hex : c2 = 101 ∨ c2 = 69
            · rw [if_pos hex] at h
              cases hdet : decodeExpTail r5 with
              | none =>
                rw [hdet] at h
                exact absurd h (by simp)
              | some ex =>
                rw [hdet] at h
                simp only [Option.map_some', Option.some.injEq] at h
                subst h
                rw [if_pos hcond]
                exact ⟨rfl, fun hty => absurd hty (by simp [JValue.type])⟩
            · rw [if_neg hex] at h
              exact absurd h (by simp)
      · rw [if_neg h46] at h
        by_cases hex : c = 101 ∨ c = 69
        · have hany : hasDotOrExp tok = true := by
            unfold hasDotOrExp
            rw [List.any_eq_true]
            refine ⟨c, hcmem, ?_⟩
            rcases hex with h1 | h1 <;> simp [h1]
          have hcond : (hasDotOrExp tok || !inInt64 (plainIntVal tok)) = true := by
            rw [hany]
            simp
          rw [if_pos hex] at h
          cases hdet : decodeExpTail r3 with
          | none =>
            rw [hdet] at h
            exact absurd h (by simp)
          | some ex =>
            rw [hdet] at h
            simp only [Option.map_some', Option.some.injEq] at h
            subst h
            rw [if_pos hcond]
            exact ⟨rfl, fun hty => absurd hty (by simp [JValue.type])⟩
        · rw [if_neg hex] at h
          exact absurd h (by simp)

/-- Witness for C9: the token `15e-1` decodes to a Float, and the token
`-12` decodes to the Integer -12. -/
theorem decode_number_integer_unless_witness :
    (JValue.jFloat 15 (-1)).type = TYPE.E_FLOAT ∧
    JValue.jInt (-12) = JValue.jInt (plainIntVal [45, 49, 50]) := by
  constructor
  · have h := (decode_number_integer_unless [49, 53, 101, 45, 49]
      (JValue.jFloat 15 (-1)) rfl).1
    rw [show hasDotOrExp [49, 53, 101, 45, 49] = true from rfl] at h
    simpa using h
  · exact (decode_number_integer_unless [45, 49, 50] (JValue.jInt (-12)) rfl).2 rfl

theorem natToDigits_shape (n : Nat) :
    ∃ c r, natToDigits n = c :: r ∧ 48 ≤ c ∧ c ≤ 57 := by
  induction n using Nat.strong_induction_on with
  | _ n ih =>
    rw [natToDigits]
    by_cases h : n < 10
    · rw [dif_pos h]
      exact ⟨48 + n, [], rfl, by omega, by omega⟩
    · rw [dif_neg h]
      obtain ⟨c, r, hc, h1, h2⟩ := ih (n / 10) (Nat.div_lt_self (by omega) (by omega))
      exact ⟨c, r ++ [48 + n % 10], by rw [hc]; rfl, h1, h2⟩

theorem natToDigits_all_digits (n : Nat) : ∀ c ∈ natToDigits n, isDigitB c = true := by
  induction n using Nat.strong_induction_on with
  | _ n ih =>
    rw [natToDigits]
    by_cases h : n < 10
    · rw [dif_pos h]
      intro c hc
      simp only [List.mem_singleton] at hc
      subst hc
      simp only [isDigitB, Bool.and_eq_true, decide_eq_true_eq]
      omega
    · rw [dif_neg h]
      intro c hc
      rcases List.mem_append.mp hc with h1 | h2
      · exact ih (n / 10) (Nat.div_lt_self (by omega) (by omega)) c h1
      · simp only [List.mem_singleton] at h2
        subst h2
        simp only [isDigitB, Bool.and_eq_true, decide_eq_true_eq]
        omega

theorem natToDigits_ne_nil (n : Nat) : natToDigits n ≠ [] := by
  obtain ⟨c, r, hc, _, _⟩ := natToDigits_shape n
  rw [hc]
  simp

theorem digitsVal_append_digit (l : List Nat) (x : Nat) :
    digitsVal (l ++ [x]) = digitsVal l * 10 + (x - 48) := by
  simp [digitsVal, List.foldl_append]

theorem digitsVal_natToDigits (n : Nat) : digitsVal (natToDigits n) = n := by
  induction n using Nat.strong_induction_on with
  | _ n ih =>
    rw [natToDigits]
    by_cases h : n < 10
    · rw [dif_pos h]
      simp only [digitsVal, List.foldl_cons, List.foldl_nil]
      omega
    · rw [dif_neg h]
      rw [digitsVal_append_digit, ih (n / 10) (Nat.div_lt_self (by omega) (by omega))]
      omega

theorem digits_take_drop (X tail : List Nat) (hX : ∀ c ∈ X, isDigitB c = true)
    (htl : ∀ c r, tail = c :: r → isDigitB c = false) :
    (X ++ tail).takeWhile isDigitB = X ∧ (X ++ tail).dropWhile isDigitB = tail := by
  constructor
  · rw [takeWhile_append_of_all _ _ _ hX]
    cases tail with
    | nil => simp
    | cons c r =>
      rw [List.takeWhile_cons_of_neg (by simp [htl c r rfl])]
      simp
  · rw [dropWhile_append_of_all _ _ _ hX]
    cases tail with
    | nil => simp
    | cons c r =>
      rw [List.dropWhile_cons_of_neg (by simp [htl c r rfl])]

theorem splitSign_intToDigits (i : Int) (tail : List Nat) :
    splitSign (intToDigits i ++ tail) = (decide (i < 0), natToDigits i.natAbs ++ tail) := by
  by_cases hi : i < 0
  · rw [intToDigits, if_pos hi]
    simp [splitSign, hi]
  · rw [intToDigits, if_neg hi]
    obtain ⟨c, r, hc, h1, h2⟩ := natToDigits_shape i.natAbs
    rw [hc, List.cons_append]
    simp only [splitSign]
    rw [if_neg (by omega)]
    simp only [Prod.mk.injEq, List.cons_append]
    exact ⟨by simp [hi], trivial⟩

theorem applySign_negLt (i : Int) :
    applySign (decide (i < 0)) (digitsVal (natToDigits i.natAbs)) = i := by
  rw [digitsVal_natToDigits]
  by_cases hi : i < 0
  · simp only [applySign]
    rw [if_pos (by simp [hi])]
    omega
  · simp only [applySign]
    rw [if_neg (by simp [hi])]
    omega

theorem decodeNumber_intToDigits (i : Int) (h : inInt64 i = true) :
    decodeNumber (intToDigits i) = some (JValue.jInt i) := by
  have hsp := splitSign_intToDigits i []
  simp only [List.append_nil] at hsp
  have htd := digits_take_drop (natToDigits i.natAbs) [] (natToDigits_all_digits _)
    (by intro c r hc; exact absurd hc (by simp))
  simp only [List.append_nil] at htd
  unfold decodeNumber
  rw [hsp]
  dsimp only
  rw [htd.1, htd.2]
  rw [if_neg (natToDigits_ne_nil _)]
  dsimp only
  rw [applySign_negLt i]
  rw [if_pos h]

theorem decodeExpTail_intToDigits (e : Int) : decodeExpTail (intToDigits e) = some e := by
  have htd := digits_take_drop (natToDigits e.natAbs) [] (natToDigits_all_digits _)
    (by intro c r hc; exact absurd hc (by simp))
  simp only [List.append_nil] at htd
  by_cases he : e < 0
  · rw [intToDigits, if_pos he]
    simp only [decodeExpTail]
    rw [if_neg (by omega)]
    simp only [if_true]
    rw [htd.1, htd.2]
    rw [if_neg (by simp [natToDigits_ne_nil])]
    rw [digitsVal_natToDigits]
    simp only [applySign, if_true, Option.some.injEq]
    omega
  · rw [intToDigits, if_neg he]
    obtain ⟨c, r, hc, h1, h2⟩ := natToDigits_shape e.natAbs
    rw [hc]
    simp only [decodeExpTail]
    rw [if_neg (by omega), if_neg (by omega)]
    rw [← hc]
    rw [htd.1, htd.2]
    rw [if_neg (by simp [natToDigits_ne_nil])]
    rw [digitsVal_natToDigits]
    simp only [applySign, Option.some.injEq]
    rw [if_neg (by simp)]
    omega

theorem decodeNumber_float (m e : Int) :
    decodeNumber (intToDigits m ++ 101 :: intToDigits e) = some (JValue.jFloat m e) := by
  have hsp := splitSign_intToDigits m (101 :: intToDigits e)
  have htd := digits_take_drop (natToDigits m.natAbs) (101 :: intToDigits e)
    (natToDigits_all_digits _)
    (by intro c r hc; injection hc with hh _; rw [← hh]; decide)
  unfold decodeNumber
  rw [hsp]
  dsimp only
  rw [htd.1, htd.2]
  rw [if_neg (natToDigits_ne_nil _)]
  dsimp only
  rw [if_neg (by decide), if_pos (by decide)]
  rw [decodeExpTail_intToDigits e]
  simp only [Option.map_some', Option.some.injEq]
  rw [applySign_negLt m]

theorem intToDigits_numChars (i : Int) : ∀ c ∈ intToDigits i, isNumChar c = true := by
  intro c hc
  rw [intToDigits] at hc
  by_cases hi : i < 0
  · rw [if_pos hi] at hc
    rcases List.mem_cons.mp hc with h | h
    · subst h
      decide
    · have hd := natToDigits_all_digits _ _ h
      simp [isNumChar, hd]
  · rw [if_neg hi] at hc
    have hd := natToDigits_all_digits _ _ hc
    simp [isNumChar, hd]

theorem hexVal_hexDigitChar (d : Nat) (h : d < 16) : hexVal (hexDigitChar d) = some d := by
  unfold hexDigitChar
  by_cases hd : d < 10
  · rw [if_pos hd]
    unfold hexVal
    rw [if_pos (by omega)]
    congr 1
    omega
  · rw [if_neg hd]
    unfold hexVal
    rw [if_neg (by omega), if_pos (by omega)]
    congr 1
    omega

theorem readHex4_esc (c : Nat) (r : List Nat) (h : c < 32) :
    readHex4 (48 :: 48 :: hexDigitChar (c / 16) :: hexDigitChar (c % 16) :: r)
      = some (c, r) := by
  simp only [readHex4]
  rw [show hexVal 48 = some 0 from rfl,
    hexVal_hexDigitChar (c / 16) (by omega), hexVal_hexDigitChar (c % 16) (by omega)]
  simp only [Option.bind_eq_bind, Option.some_bind, Option.some.injEq, Prod.mk.injEq]
  constructor
  · omega
  · trivial

theorem utf8Encode_small (c : Nat) (h : c < 128) : utf8Encode c = [c] := by
  rw [utf8Encode, if_pos h]

theorem escape_parse : ∀ (s : List Nat) (fu : Nat) (rest : List Nat),
    (escape s).length < fu →
    parseStrF fu (escape s ++ 34 :: rest) = .ok (s, rest) := by
  intro s
  induction s with
  | nil =>
    intro fu rest hfu
    cases fu with
    | zero => exact absurd hfu (Nat.not_lt_zero _)
    | succ fu =>
      simp only [escape, List.nil_append]
      simp only [parseStrF, Nat.reduceEqDiff, reduceIte, or_self, or_false, false_or, true_or,
          or_true, if_false, if_true]
  | cons c s' ih =>
    intro fu rest hfu
    cases fu with
    | zero => exact absurd hfu (Nat.not_lt_zero _)
    | succ fu =>
      by_cases h34 : c = 34
      · subst h34
        have hes : escape (34 :: s') = 92 :: 34 :: escape s' := rfl
        rw [hes] at hfu
        rw [hes]
        simp only [List.cons_append]
        simp only [parseStrF, Nat.reduceEqDiff, reduceIte, or_self, or_false, false_or, true_or,
          or_true, if_false, if_true]
        rw [ih fu rest (by simp only [List.length_cons] at hfu; omega)]
        rfl
      · by_cases h92 : c = 92
        · subst h92
          have hes : escape (92 :: s') = 92 :: 92 :: escape s' := rfl
          rw [hes] at hfu
          rw [hes]
          simp only [List.cons_append]
          simp only [parseStrF, Nat.reduceEqDiff, reduceIte, or_self, or_false, false_or, true_or,
          or_true, if_false, if_true]
          rw [ih fu rest (by simp only [List.length_cons] at hfu; omega)]
          rfl
        · by_cases hlt : c < 32
          · have hesb : escByte c
                = [92, 117, 48, 48, hexDigitChar (c / 16), hexDigitChar (c % 16)] := by
              rw [escByte, if_neg h34, if_neg h92, if_pos hlt]
            have hes : escape (c :: s')
                = 92 :: 117 :: 48 :: 48 :: hexDigitChar (c / 16)
                    :: hexDigitChar (c % 16) :: escape s' := by
              rw [show escape (c :: s') = escByte c ++ escape s' from rfl, hesb]
              rfl
            rw [hes] at hfu
            rw [hes]
            simp only [List.cons_append]
            simp only [parseStrF, Nat.reduceEqDiff, reduceIte, or_self, or_false, false_or, true_or,
          or_true, if_false, if_true]
            rw [readHex4_esc c (escape s' ++ 34 :: rest) hlt]
            dsimp only
            rw [if_neg (by omega)]
            rw [ih fu rest (by simp only [List.length_cons] at hfu; omega)]
            rw [utf8Encode_small c (by omega)]
            rfl
          · have hesb : escByte c = [c] := by
              rw [escByte, if_neg h34, if_neg h92, if_neg hlt]
            have hes : escape (c :: s') = c :: escape s' := by
              rw [show escape (c :: s') = escByte c ++ escape s' from rfl, hesb]
              rfl
            rw [hes] at hfu
            rw [hes]
            simp only [List.cons_append]
            simp only [parseStrF]
            rw [if_neg h34, if_neg h92]
            rw [ih fu rest (by simp only [List.length_cons] at hfu; omega)]
            rfl

theorem keyLt_irrefl (a : List Nat) : JValue.keyLt a a = false := by
  induction a with
  | nil => rfl
  | cons a1 as1 ih =>
    simp only [JValue.keyLt]
    rw [if_neg (by omega), if_neg (by omega)]
    exact ih

theorem keyLt_trans : ∀ (a b c : List Nat),
    JValue.keyLt a b = true → JValue.keyLt b c = true → JValue.keyLt a c = true := by
  intro a
  induction a with
  | nil =>
    intro b c hab hbc
    cases b with
    | nil => simp [JValue.keyLt] at hab
    | cons b1 bs =>
      cases c with
      | nil => simp [JValue.keyLt] at hbc
      | cons c1 cs => simp [JValue.keyLt]
  | cons a1 as1 ih =>
    intro b c hab hbc
    cases b with
    | nil => simp [JValue.keyLt] at hab
    | cons b1 bs =>
      cases c with
      | nil => simp [JValue.keyLt] at hbc
      | cons c1 cs =>
        simp only [JValue.keyLt] at hab hbc ⊢
        by_cases h1 : a1 < b1
        · by_cases h2 : b1 < c1
          · rw [if_pos (by omega : a1 < c1)]
          · rw [if_neg h2] at hbc
            by_cases h3 : c1 < b1
            · rw [if_pos h3] at hbc
              exact absurd hbc (by simp)
            · have hb1c1 : b1 = c1 := by omega
              subst hb1c1
              rw [if_pos h1]
        · rw [if_neg h1] at hab
          by_cases h1b : b1 < a1
          · rw [if_pos h1b] at hab
            exact absurd hab (by simp)
          · rw [if_neg h1b] at hab
            have hab1 : a1 = b1 := by omega
            subst hab1
            by_cases h2 : a1 < c1
            · rw [if_pos h2] at hbc ⊢
            · rw [if_neg h2] at hbc ⊢
              by_cases h3 : c1 < a1
              · rw [if_pos h3] at hbc
                exact absurd hbc (by simp)
              · rw [if_neg h3] at hbc ⊢
                exact ih bs cs hab hbc

theorem keyLt_total : ∀ (a b : List Nat),
    a = b ∨ JValue.keyLt a b = true ∨ JValue.keyLt b a = true := by
  intro a
  induction a with
  | nil =>
    intro b
    cases b with
    | nil => exact Or.inl rfl
    | cons b1 bs => exact Or.inr (Or.inl (by simp [JValue.keyLt]))
  | cons a1 as1 ih =>
    intro b
    cases b with
    | nil => exact Or.inr (Or.inr (by simp [JValue.keyLt]))
    | cons b1 bs =>
      by_cases h1 : a1 < b1
      · refine Or.inr (Or.inl ?_)
        simp only [JValue.keyLt]
        rw [if_pos h1]
      · by_cases h2 : b1 < a1
        · refine Or.inr (Or.inr ?_)
          simp only [JValue.keyLt]
          rw [if_pos h2]
        · have hab : a1 = b1 := by omega
          subst hab
          rcases ih bs with h | h | h
          · exact Or.inl (by rw [h])
          · refine Or.inr (Or.inl ?_)
            simp only [JValue.keyLt]
            rw [if_neg h1, if_neg h2]
            exact h
          · refine Or.inr (Or.inr ?_)
            simp only [JValue.keyLt]
            rw [if_neg h1, if_neg h2]
            exact h

theorem insertKV_mem (kvs : List (List Nat × JValue)) (k : List Nat) (v : JValue) :
    ∀ kv ∈ JValue.insertKV kvs k v, kv = (k, v) ∨ kv ∈ kvs := by
  induction kvs with
  | nil =>
    intro kv hkv
    simp only [JValue.insertKV, List.mem_singleton] at hkv
    exact Or.inl hkv
  | cons p r ih =>
    obtain ⟨k1, v1⟩ := p
    intro kv hkv
    simp only [JValue.insertKV] at hkv
    by_cases h1 : JValue.keyLt k k1 = true
    · rw [if_pos h1] at hkv
      rcases List.mem_cons.mp hkv with h | h
      · exact Or.inl h
      · exact Or.inr h
    · rw [if_neg h1] at hkv
      by_cases h2 : k = k1
      · rw [if_pos h2] at hkv
        rcases List.mem_cons.mp hkv with h | h
        · exact Or.inl h
        · exact Or.inr (List.mem_cons_of_mem _ h)
      · rw [if_neg h2] at hkv
        rcases List.mem_cons.mp hkv with h | h
        · refine Or.inr ?_
          rw [h]
          exact List.mem_cons_self _ _
        · rcases ih kv h with h' | h'
          · exact Or.inl h'
          · exact Or.inr (List.mem_cons_of_mem _ h')

theorem insertKV_pairwise (kvs : List (List Nat × JValue)) (k : List Nat) (v : JValue)
    (h : List.Pairwise keyRel kvs) :
    List.Pairwise keyRel (JValue.insertKV kvs k v) := by
  induction kvs with
  | nil => simp [JValue.insertKV]
  | cons p r ih =>
    obtain ⟨k1, v1⟩ := p
    rw [List.pairwise_cons] at h
    obtain ⟨h1all, hr⟩ := h
    simp only [JValue.insertKV]
    by_cases h1 : JValue.keyLt k k1 = true
    · rw [if_pos h1]
      rw [List.pairwise_cons]
      constructor
      · intro b hb
        rcases List.mem_cons.mp hb with hb1 | hb2
        · rw [hb1]
          exact h1
        · exact keyLt_trans k k1 b.1 h1 (h1all b hb2)
      · rw [List.pairwise_cons]
        exact ⟨h1all, hr⟩
    · rw [if_neg h1]
      by_cases h2 : k = k1
      · rw [if_pos h2]
        rw [List.pairwise_cons]
        constructor
        · intro b hb
          have := h1all b hb
          unfold keyRel at this ⊢
          rw [h2]
          exact this
        · exact hr
      · rw [if_neg h2]
        rw [List.pairwise_cons]
        constructor
        · intro b hb
          rcases insertKV_mem r k v b hb with hb1 | hb2
          · rw [hb1]
            rcases keyLt_total k k1 with he | hlt | hgt
            · exact absurd he h2
            · exact absurd hlt h1
            · exact hgt
          · exact h1all b hb2
        · exact ih hr

theorem insertKV_append (kvs : List (List Nat × JValue)) (k : List Nat) (v : JValue)
    (h : ∀ kv ∈ kvs, JValue.keyLt kv.1 k = true) :
    JValue.insertKV kvs k v = kvs ++ [(k, v)] := by
  induction kvs with
  | nil => rfl
  | cons p r ih =>
    obtain ⟨k1, v1⟩ := p
    have hk1 : JValue.keyLt k1 k = true := h (k1, v1) (by simp)
    simp only [JValue.insertKV]
    rw [if_neg (fun hc => by
      have ht := keyLt_trans k k1 k hc hk1
      rw [keyLt_irrefl] at ht
      exact absurd ht (by simp))]
    rw [if_neg (fun hc => by
      rw [hc] at hk1
      rw [keyLt_irrefl] at hk1
      exact absurd hk1 (by simp))]
    rw [ih (fun kv hkv => h kv (List.mem_cons_of_mem _ hkv))]
    rfl

theorem skipWs_cons_eq (c : Nat) (r : List Nat)
    (hws : ¬(c = 32 ∨ c = 9 ∨ c = 10 ∨ c = 13)) (h47 : c ≠ 47) :
    skipWs (c :: r) = c :: r := by
  show skipWsF (r.length + 1) (c :: r) = c :: r
  simp only [skipWsF]
  rw [if_neg hws, if_neg h47]

theorem intToDigits_head (i : Int) :
    ∃ c r, intToDigits i = c :: r ∧ (c = 45 ∨ (48 ≤ c ∧ c ≤ 57)) := by
  by_cases hi : i < 0
  · refine ⟨45, natToDigits i.natAbs, ?_, Or.inl rfl⟩
    rw [intToDigits, if_pos hi]
  · obtain ⟨c, r, hc, h1, h2⟩ := natToDigits_shape i.natAbs
    refine ⟨c, r, ?_, Or.inr ⟨h1, h2⟩⟩
    rw [intToDigits, if_neg hi, hc]

theorem writeV_shape (v : JValue) : ∃ c r, writeV v = c :: r ∧
    (c = 110 ∨ c = 116 ∨ c = 102 ∨ c = 34 ∨ c = 91 ∨ c = 123 ∨ c = 45
      ∨ (48 ≤ c ∧ c ≤ 57)) := by
  cases v with
  | jNull => exact ⟨110, [117, 108, 108], by simp [writeV], by omega⟩
  | jBool b =>
    cases b with
    | true => exact ⟨116, [114, 117, 101], by simp [writeV], by omega⟩
    | false => exact ⟨102, [97, 108, 115, 101], by simp [writeV], by omega⟩
  | jInt n =>
    obtain ⟨c, r, hc, hd⟩ := intToDigits_head n
    refine ⟨c, r, ?_, by omega⟩
    rw [show writeV (JValue.jInt n) = intToDigits n from by simp [writeV], hc]
  | jFloat m e =>
    obtain ⟨c, r, hc, hd⟩ := intToDigits_head m
    refine ⟨c, r ++ 101 :: intToDigits e, ?_, by omega⟩
    rw [show writeV (JValue.jFloat m e) = intToDigits m ++ 101 :: intToDigits e
        from by simp [writeV], hc]
    rfl
  | jString s => exact ⟨34, escape s ++ [34], by simp [writeV], by omega⟩
  | jArray xs =>
    cases xs with
    | nil => exact ⟨91, [93], by simp [writeV], by omega⟩
    | cons x xs' => exact ⟨91, writeElems x xs' ++ [93], by simp [writeV], by omega⟩
  | jObject kvs =>
    cases kvs with
    | nil => exact ⟨123, [125], by simp [writeV], by omega⟩
    | cons kv kvs' => exact ⟨123, writeMembs kv kvs' ++ [125], by simp [writeV], by omega⟩
  | jDate t => exact ⟨34, intToDigits t ++ [34], by simp [writeV], by omega⟩
  | jData d => exact ⟨34, escape d ++ [34], by simp [writeV], by omega⟩

theorem skipWs_writeV (v : JValue) (rest : List Nat) :
    skipWs (writeV v ++ rest) = writeV v ++ rest := by
  obtain ⟨c, r, hc, hd⟩ := writeV_shape v
  rw [hc, List.cons_append]
  exact skipWs_cons_eq c _ (by omega) (by omega)

theorem writeV_len_pos (v : JValue) : 1 ≤ (writeV v).length := by
  obtain ⟨c, r, hc, _⟩ := writeV_shape v
  rw [hc]
  simp

theorem numChars_take_drop (X rest : List Nat) (hX : ∀ c ∈ X, isNumChar c = true)
    (hr : headNotNum rest) :
    (X ++ rest).takeWhile isNumChar = X ∧ (X ++ rest).dropWhile isNumChar = rest := by
  constructor
  · rw [takeWhile_append_of_all _ _ _ hX]
    cases rest with
    | nil => simp
    | cons c r =>
      simp only [headNotNum] at hr
      rw [List.takeWhile_cons_of_neg (by simp [hr])]
      simp
  · rw [dropWhile_append_of_all _ _ _ hX]
    cases rest with
    | nil => simp
    | cons c r =>
      simp only [headNotNum] at hr
      rw [List.dropWhile_cons_of_neg (by simp [hr])]

theorem floatText_numChars (m e : Int) :
    ∀ c ∈ intToDigits m ++ 101 :: intToDigits e, isNumChar c = true := by
  intro c hc
  rcases List.mem_append.mp hc with h | h
  · exact intToDigits_numChars m c h
  · rcases List.mem_cons.mp h with h1 | h1
    · rw [h1]
      decide
    · exact intToDigits_numChars e c h1

theorem write_parse_inv : ∀ fu : Nat,
    (∀ t rest, WF t → (writeV t).length ≤ fu → headNotNum rest →
      parseVal fu (writeV t ++ rest) = .ok (t, rest)) ∧
    (∀ x xs rest, WF (JValue.jArray (x :: xs)) → (writeElems x xs).length < fu →
      parseElems fu (writeElems x xs ++ 93 :: rest) = .ok (x :: xs, rest)) ∧
    (∀ kv kvs acc rest, List.Pairwise keyRel (acc ++ kv :: kvs) →
      (∀ p ∈ kv :: kvs, WF p.2) → (writeMembs kv kvs).length < fu →
      parseMembs fu acc (writeMembs kv kvs ++ 125 :: rest)
        = .ok (JValue.jObject (acc ++ kv :: kvs), rest)) := by
  intro fu
  induction fu with
  | zero =>
    refine ⟨?_, ?_, ?_⟩
    · intro t rest hwf hlen hrest
      have := writeV_len_pos t
      omega
    · intro x xs rest hwf hlen
      exact absurd hlen (Nat.not_lt_zero _)
    · intro kv kvs acc rest hpw hwfv hlen
      exact absurd hlen (Nat.not_lt_zero _)
  | succ fu ih =>
    obtain ⟨ihV, ihE, ihM⟩ := ih
    refine ⟨?_, ?_, ?_⟩
    · intro t rest hwf hlen hrest
      cases t with
      | jNull =>
        have hw : writeV JValue.jNull = [110, 117, 108, 108] := by simp [writeV]
        rw [hw]
        simp only [List.cons_append, List.nil_append]
        simp only [parseVal]
        rw [skipWs_cons_eq 110 _ (by omega) (by omega)]
        simp only [Nat.reduceEqDiff, reduceIte, or_self, or_false, false_or, true_or,
          or_true, if_false, if_true]
      | jBool b =>
        cases b with
        | true =>
          have hw : writeV (JValue.jBool true) = [116, 114, 117, 101] := by simp [writeV]
          rw [hw]
          simp only [List.cons_append, List.nil_append]
          simp only [parseVal]
          rw [skipWs_cons_eq 116 _ (by omega) (by omega)]
          simp only [Nat.reduceEqDiff, reduceIte, or_self, or_false, false_or, true_or,
            or_true, if_false, if_true]
        | false =>
          have hw : writeV (JValue.jBool false) = [102, 97, 108, 115, 101] := by simp [writeV]
          rw [hw]
          simp only [List.cons_append, List.nil_append]
          simp only [parseVal]
          rw [skipWs_cons_eq 102 _ (by omega) (by omega)]
          simp only [Nat.reduceEqDiff, reduceIte, or_self, or_false, false_or, true_or,
            or_true, if_false, if_true]
      | jInt n =>
        have hin : inInt64 n = true := by cases hwf with | wfInt _ h => exact h
        have hw : writeV (JValue.jInt n) = intToDigits n := by simp [writeV]
        rw [hw]
        obtain ⟨c, ds, hc, hd⟩ := intToDigits_head n
        have htd := numChars_take_drop (intToDigits n) rest (intToDigits_numChars n) hrest
        rw [hc, List.cons_append]
        simp only [parseVal]
        rw [skipWs_cons_eq c _ (by omega) (by omega)]
        dsimp only
        rw [if_neg (by omega), if_neg (by omega), if_neg (by omega), if_neg (by omega),
          if_neg (by omega), if_neg (by omega)]
        rw [if_pos (show (isDigitB c || c == 45) = true by
          rcases hd with h | h
          · rw [h]
            rfl
          · simp only [isDigitB, Bool.or_eq_true, Bool.and_eq_true, decide_eq_true_eq]
            exact Or.inl ⟨h.1, h.2⟩)]
        rw [← List.cons_append, ← hc]
        rw [htd.1, htd.2]
        rw [decodeNumber_intToDigits n hin]
      | jFloat m e =>
        have hw : writeV (JValue.jFloat m e) = intToDigits m ++ 101 :: intToDigits e := by
          simp [writeV]
        rw [hw]
        obtain ⟨c, ds, hc, hd⟩ := intToDigits_head m
        have htd := numChars_take_drop (intToDigits m ++ 101 :: intToDigits e) rest
          (floatText_numChars m e) hrest
        have hXc : intToDigits m ++ 101 :: intToDigits e
            = c :: (ds ++ 101 :: intToDigits e) := by
          rw [hc]
          rfl
        rw [hXc, List.cons_append]
        simp only [parseVal]
        rw [skipWs_cons_eq c _ (by omega) (by omega)]
        dsimp only
        rw [if_neg (by omega), if_neg (by omega), if_neg (by omega), if_neg (by omega),
          if_neg (by omega), if_neg (by omega)]
        rw [if_pos (show (isDigitB c || c == 45) = true by
          rcases hd with h | h
          · rw [h]
            rfl
          · simp only [isDigitB, Bool.or_eq_true, Bool.and_eq_true, decide_eq_true_eq]
            exact Or.inl ⟨h.1, h.2⟩)]
        rw [← List.cons_append, ← hXc]
        rw [htd.1, htd.2]
        rw [decodeNumber_float m e]
      | jString s =>
        have hw : writeV (JValue.jString s) = 34 :: escape s ++ [34] := by simp [writeV]
        rw [hw]
        have hin2 : (34 :: escape s ++ [34]) ++ rest = 34 :: (escape s ++ 34 :: rest) := by
          simp
        rw [hin2]
        simp only [parseVal]
        rw [skipWs_cons_eq 34 _ (by omega) (by omega)]
        dsimp only
        simp only [Nat.reduceEqDiff, reduceIte, or_self, or_false, false_or, true_or,
          or_true, if_false, if_true]
        rw [escape_parse s _ rest (by simp [List.length_append]; omega)]
        rfl
      | jArray xs =>
        cases xs with
        | nil =>
          have hw : writeV (JValue.jArray []) = [91, 93] := by simp [writeV]
          rw [hw]
          simp only [List.cons_append, List.nil_append]
          simp only [parseVal]
          rw [skipWs_cons_eq 91 _ (by omega) (by omega)]
          dsimp only
          simp only [Nat.reduceEqDiff, reduceIte, or_self, or_false, false_or, true_or,
            or_true, if_false, if_true]
          rw [skipWs_cons_eq 93 _ (by omega) (by omega)]
          simp only [Nat.reduceEqDiff, reduceIte, if_false, if_true]
        | cons x xs' =>
          have hw : writeV (JValue.jArray (x :: xs')) = 91 :: writeElems x xs' ++ [93] := by
            simp [writeV]
          rw [hw] at hlen ⊢
          have hin2 : (91 :: writeElems x xs' ++ [93]) ++ rest
              = 91 :: (writeElems x xs' ++ 93 :: rest) := by
            simp
          rw [hin2]
          simp only [parseVal]
          rw [skipWs_cons_eq 91 _ (by omega) (by omega)]
          dsimp only
          simp only [Nat.reduceEqDiff, reduceIte, or_self, or_false, false_or, true_or,
            or_true, if_false, if_true]
          obtain ⟨c2, r2, hc2, hd2⟩ := writeV_shape x
          have hwe2 : ∃ tl, writeElems x xs' = writeV x ++ tl := by
            cases xs' with
            | nil => exact ⟨[], by simp [writeElems]⟩
            | cons y ys => exact ⟨44 :: writeElems y ys, by simp [writeElems]⟩
          obtain ⟨tl, htl⟩ := hwe2
          have hshape : writeElems x xs' ++ 93 :: rest = c2 :: (r2 ++ (tl ++ 93 :: rest)) := by
            rw [htl, hc2]
            simp
          rw [hshape]
          rw [skipWs_cons_eq c2 _ (by omega) (by omega)]
          dsimp only
          rw [if_neg (by omega)]
          rw [← hshape]
          rw [ihE x xs' rest hwf (by
            simp only [List.length_cons, List.length_append] at hlen
            omega)]
          rfl
      | jObject kvs =>
        cases kvs with
        | nil =>
          have hw : writeV (JValue.jObject []) = [123, 125] := by simp [writeV]
          rw [hw]
          simp only [List.cons_append, List.nil_append]
          simp only [parseVal]
          rw [skipWs_cons_eq 123 _ (by omega) (by omega)]
          dsimp only
          simp only [Nat.reduceEqDiff, reduceIte, or_self, or_false, false_or, true_or,
            or_true, if_false, if_true]
          rw [skipWs_cons_eq 125 _ (by omega) (by omega)]
          simp only [Nat.reduceEqDiff, reduceIte, if_false, if_true]
        | cons kv kvs' =>
          have hw : writeV (JValue.jObject (kv :: kvs'))
              = 123 :: writeMembs kv kvs' ++ [125] := by
            simp [writeV]
          rw [hw] at hlen ⊢
          have hin2 : (123 :: writeMembs kv kvs' ++ [125]) ++ rest
              = 123 :: (writeMembs kv kvs' ++ 125 :: rest) := by
            simp
          rw [hin2]
          simp only [parseVal]
          rw [skipWs_cons_eq 123 _ (by omega) (by omega)]
          dsimp only
          simp only [Nat.reduceEqDiff, reduceIte, or_self, or_false, false_or, true_or,
            or_true, if_false, if_true]
          have hwm2 : ∃ tl, writeMembs kv kvs' = 34 :: tl := by
            obtain ⟨k, v⟩ := kv
            cases kvs' with
            | nil => exact ⟨escape k ++ 34 :: 58 :: writeV v, by simp [writeMembs]⟩
            | cons kv2 kvs2 =>
              exact ⟨escape k ++ 34 :: 58 :: (writeV v ++ 44 :: writeMembs kv2 kvs2),
                by simp [writeMembs]⟩
          obtain ⟨tl, htl⟩ := hwm2
          have hshape : writeMembs kv kvs' ++ 125 :: rest = 34 :: (tl ++ 125 :: rest) := by
            rw [htl]
            rfl
          rw [hshape]
          rw [skipWs_cons_eq 34 _ (by omega) (by omega)]
          dsimp only
          rw [if_neg (by omega)]
          rw [← hshape]
          have hpw0 : List.Pairwise keyRel ([] ++ kv :: kvs') := by
            cases hwf with | wfObject _ hs hv => simpa using hs
          have hwv0 : ∀ p ∈ kv :: kvs', WF p.2 := by
            cases hwf with | wfObject _ hs hv => exact hv
          rw [ihM kv kvs' [] rest hpw0 hwv0 (by
            simp only [List.length_cons, List.length_append] at hlen
            omega)]
          simp
      | jDate t => cases hwf
      | jData d => cases hwf
    · intro x xs rest hwf hlen
      have hwfx : WF x := by
        cases hwf with | wfArray _ h => exact h x (by simp)
      simp only [parseElems]
      cases xs with
      | nil =>
        have hwe : writeElems x [] = writeV x := by simp [writeElems]
        rw [hwe] at hlen ⊢
        rw [ihV x (93 :: rest) hwfx (by omega) (by simp only [headNotNum]; rfl)]
        dsimp only [Except.bind]
        rw [skipWs_cons_eq 93 _ (by omega) (by omega)]
        dsimp only
        simp only [Nat.reduceEqDiff, reduceIte, if_false, if_true]
      | cons y ys =>
        have hwe : writeElems x (y :: ys) = writeV x ++ 44 :: writeElems y ys := by
          simp [writeElems]
        rw [hwe] at hlen ⊢
        have hin2 : (writeV x ++ 44 :: writeElems y ys) ++ 93 :: rest
            = writeV x ++ (44 :: (writeElems y ys ++ 93 :: rest)) := by
          simp
        rw [hin2]
        have hlen2 : (writeV x).length ≤ fu ∧ (writeElems y ys).length < fu := by
          have := writeV_len_pos x
          simp only [List.length_append, List.length_cons] at hlen
          omega
        rw [ihV x _ hwfx hlen2.1 (by simp only [headNotNum]; rfl)]
        dsimp only [Except.bind]
        rw [skipWs_cons_eq 44 _ (by omega) (by omega)]
        dsimp only
        simp only [Nat.reduceEqDiff, reduceIte, if_false, if_true]
        have hwfyys : WF (JValue.jArray (y :: ys)) := by
          cases hwf with
          | wfArray _ h => exact WF.wfArray _ (fun z hz => h z (List.mem_cons_of_mem _ hz))
        rw [ihE y ys rest hwfyys hlen2.2]
        rfl
    · intro kv kvs acc rest hpw hwfv hlen
      obtain ⟨k, v⟩ := kv
      have hwfvv : WF v := hwfv (k, v) (by simp)
      simp only [parseMembs]
      cases kvs with
      | nil =>
        have hwm : writeMembs (k, v) [] = 34 :: escape k ++ 34 :: 58 :: writeV v := by
          simp [writeMembs]
        rw [hwm] at hlen ⊢
        have hin2 : (34 :: escape k ++ 34 :: 58 :: writeV v) ++ 125 :: rest
            = 34 :: (escape k ++ 34 :: (58 :: (writeV v ++ 125 :: rest))) := by
          simp
        rw [hin2]
        rw [skipWs_cons_eq 34 _ (by omega) (by omega)]
        dsimp only
        simp only [Nat.reduceEqDiff, reduceIte, if_false, if_true]
        rw [escape_parse k _ _ (by simp [List.length_append]; omega)]
        dsimp only [Except.bind]
        rw [skipWs_cons_eq 58 _ (by omega) (by omega)]
        dsimp only
        simp only [Nat.reduceEqDiff, reduceIte, if_false, if_true]
        have hlenv : (writeV v).length ≤ fu := by
          simp only [List.length_cons, List.length_append] at hlen
          omega
        rw [ihV v (125 :: rest) hwfvv hlenv (by simp only [headNotNum]; rfl)]
        dsimp only [Except.bind]
        rw [skipWs_cons_eq 125 _ (by omega) (by omega)]
        dsimp only
        simp only [Nat.reduceEqDiff, reduceIte, if_false, if_true]
        have hall : ∀ p ∈ acc, JValue.keyLt p.1 k = true := by
          intro p hp
          have h := (List.pairwise_append.mp hpw).2.2 p hp (k, v) (by simp)
          exact h
        rw [insertKV_append acc k v hall]
      | cons kv2 kvs' =>
        have hwm : writeMembs (k, v) (kv2 :: kvs')
            = 34 :: escape k ++ 34 :: 58 :: writeV v ++ 44 :: writeMembs kv2 kvs' := by
          simp [writeMembs]
        rw [hwm] at hlen ⊢
        have hin2 : (34 :: escape k ++ 34 :: 58 :: writeV v ++ 44 :: writeMembs kv2 kvs')
              ++ 125 :: rest
            = 34 :: (escape k ++ 34 :: (58 :: (writeV v
                ++ 44 :: (writeMembs kv2 kvs' ++ 125 :: rest)))) := by
          simp
        rw [hin2]
        rw [skipWs_cons_eq 34 _ (by omega) (by omega)]
        dsimp only
        simp only [Nat.reduceEqDiff, reduceIte, if_false, if_true]
        rw [escape_parse k _ _ (by simp [List.length_append]; omega)]
        dsimp only [Except.bind]
        rw [skipWs_cons_eq 58 _ (by omega) (by omega)]
        dsimp only
        simp only [Nat.reduceEqDiff, reduceIte, if_false, if_true]
        have hlenv : (writeV v).length ≤ fu ∧ (writeMembs kv2 kvs').length < fu := by
          simp only [List.length_cons, List.length_append] at hlen
          omega
        rw [ihV v _ hwfvv hlenv.1 (by simp only [headNotNum]; rfl)]
        dsimp only [Except.bind]
        rw [skipWs_cons_eq 44 _ (by omega) (by omega)]
        dsimp only
        simp only [Nat.reduceEqDiff, reduceIte, if_false, if_true]
        have hall : ∀ p ∈ acc, JValue.keyLt p.1 k = true := by
          intro p hp
          have h := (List.pairwise_append.mp hpw).2.2 p hp (k, v) (by simp)
          exact h
        rw [insertKV_append acc k v hall]
        have hpw2 : List.Pairwise keyRel ((acc ++ [(k, v)]) ++ kv2 :: kvs') := by
          rw [show (acc ++ [(k, v)]) ++ kv2 :: kvs' = acc ++ (k, v) :: kv2 :: kvs' by simp]
          exact hpw
        have hwv2 : ∀ p ∈ kv2 :: kvs', WF p.2 :=
          fun p hp => hwfv p (List.mem_cons_of_mem _ hp)
        rw [ihM kv2 kvs' (acc ++ [(k, v)]) rest hpw2 hwv2 hlenv.2]
        rw [show (acc ++ [(k, v)]) ++ kv2 :: kvs' = acc ++ (k, v) :: kv2 :: kvs' by simp]

theorem decodeNumber_wf (tok : List Nat) (v : JValue) (h : decodeNumber tok = some v) :
    WF v := by
  unfold decodeNumber at h
  by_cases hds : (splitSign tok).2.takeWhile isDigitB = []
  · rw [if_pos hds] at h
    exact absurd h (by simp)
  · rw [if_neg hds] at h
    cases hr2 : (splitSign tok).2.dropWhile isDigitB with
    | nil =>
      rw [hr2] at h
      dsimp only at h
      by_cases hin : inInt64 (applySign (splitSign tok).1
          (digitsVal ((splitSign tok).2.takeWhile isDigitB))) = true
      · rw [if_pos hin] at h
        simp only [Option.some.injEq] at h
        subst h
        exact WF.wfInt _ hin
      · rw [if_neg hin] at h
        simp only [Option.some.injEq] at h
        subst h
        exact WF.wfFloat _ _
    | cons c r3 =>
      rw [hr2] at h
      dsimp only at h
      by_cases h46 : c = 46
      · rw [if_pos h46] at h
        by_cases hfs : r3.takeWhile isDigitB = []
        · rw [if_pos hfs] at h
          exact absurd h (by simp)
        · rw [if_neg hfs] at h
          cases hr4 : r3.dropWhile isDigitB with
          | nil =>
            rw [hr4] at h
            dsimp only at h
            simp only [Option.some.injEq] at h
            subst h
            exact WF.wfFloat _ _
          | cons c2 r5 =>
            rw [hr4] at h
            dsimp only at h
            by_cases hex : c2 = 101 ∨ c2 = 69
            · rw [if_pos hex] at h
              cases hdet : decodeExpTail r5 with
              | none =>
                rw [hdet] at h
                exact absurd h (by simp)
              | some ex =>
                rw [hdet] at h
                simp only [Option.map_some', Option.some.injEq] at h
                subst h
                exact WF.wfFloat _ _
            · rw [if_neg hex] at h
              exact absurd h (by simp)
      · rw [if_neg h46] at h
        by_cases hex : c = 101 ∨ c = 69
        · rw [if_pos hex] at h
          cases hdet : decodeExpTail r3 with
          | none =>
            rw [hdet] at h
            exact absurd h (by simp)
          | some ex =>
            rw [hdet] at h
            simp only [Option.map_some', Option.some.injEq] at h
            subst h
            exact WF.wfFloat _ _
        · rw [if_neg hex] at h
          exact absurd h (by simp)

theorem parse_wf : ∀ fu : Nat,
    (∀ s t r, parseVal fu s = .ok (t, r) → WF t) ∧
    (∀ s ts r, parseElems fu s = .ok (ts, r) → ∀ x ∈ ts, WF x) ∧
    (∀ acc s t r, List.Pairwise keyRel acc → (∀ p ∈ acc, WF p.2) →
      parseMembs fu acc s = .ok (t, r) → WF t) := by
  intro fu
  induction fu with
  | zero =>
    refine ⟨?_, ?_, ?_⟩
    · intro s t r h
      exact absurd h (by simp [parseVal])
    · intro s ts r h
      exact absurd h (by simp [parseElems])
    · intro acc s t r _ _ h
      exact absurd h (by simp [parseMembs])
  | succ fu ih =>
    obtain ⟨ihV, ihE, ihM⟩ := ih
    refine ⟨?_, ?_, ?_⟩
    · intro s t r h
      simp only [parseVal] at h
      cases hws : skipWs s with
      | nil =>
        rw [hws] at h
        exact absurd h (by simp)
      | cons c rest =>
        rw [hws] at h
        dsimp only at h
        split at h
        · split at h
          · simp only [Except.ok.injEq, Prod.mk.injEq] at h
            rw [← h.1]
            exact WF.wfNull
          · exact absurd h (by simp)
        · split at h
          · split at h
            · simp only [Except.ok.injEq, Prod.mk.injEq] at h
              rw [← h.1]
              exact WF.wfBool true
            · exact absurd h (by simp)
          · split at h
            · split at h
              · simp only [Except.ok.injEq, Prod.mk.injEq] at h
                rw [← h.1]
                exact WF.wfBool false
              · exact absurd h (by simp)
            · split at h
              · cases hps : parseStrF (rest.length + 1) rest with
                | ok p =>
                  rw [hps] at h
                  simp only [Except.map, Except.ok.injEq, Prod.mk.injEq] at h
                  rw [← h.1]
                  exact WF.wfString p.1
                | error e =>
                  rw [hps] at h
                  exact absurd h (by simp [Except.map])
              · split at h
                · cases hws2 : skipWs rest with
                  | nil =>
                    rw [hws2] at h
                    exact absurd h (by simp)
                  | cons c2 r2 =>
                    rw [hws2] at h
                    dsimp only at h
                    split at h
                    · simp only [Except.ok.injEq, Prod.mk.injEq] at h
                      rw [← h.1]
                      exact WF.wfArray [] (by simp)
                    · cases hpe : parseElems fu (c2 :: r2) with
                      | ok p =>
                        rw [hpe] at h
                        simp only [Except.map, Except.ok.injEq, Prod.mk.injEq] at h
                        rw [← h.1]
                        exact WF.wfArray p.1 (ihE (c2 :: r2) p.1 p.2 (by rw [hpe]))
                      | error e =>
                        rw [hpe] at h
                        exact absurd h (by simp [Except.map])
                · split at h
                  · cases hws2 : skipWs rest with
                    | nil =>
                      rw [hws2] at h
                      exact absurd h (by simp)
                    | cons c2 r2 =>
                      rw [hws2] at h
                      dsimp only at h
                      split at h
                      · simp only [Except.ok.injEq, Prod.mk.injEq] at h
                        rw [← h.1]
                        exact WF.wfObject [] (by simp) (by simp)
                      · exact ihM [] (c2 :: r2) t r (by simp) (by simp) h
                  · split at h
                    · split at h
                      · rename_i v hv
                        simp only [Except.ok.injEq, Prod.mk.injEq] at h
                        rw [← h.1]
                        exact decodeNumber_wf _ v hv
                      · exact absurd h (by simp)
                    · exact absurd h (by simp)
    · intro s ts r h
      simp only [parseElems] at h
      cases hv : parseVal fu s with
      | error e =>
        rw [hv] at h
        exact absurd h (by simp [Except.bind])
      | ok p =>
        rw [hv] at h
        dsimp only [Except.bind] at h
        cases hws : skipWs p.2 with
        | nil =>
          rw [hws] at h
          exact absurd h (by simp)
        | cons c rr =>
          rw [hws] at h
          dsimp only at h
          split at h
          · cases hq : parseElems fu rr with
            | ok q =>
              rw [hq] at h
              simp only [Except.map, Except.ok.injEq, Prod.mk.injEq] at h
              rw [← h.1]
              intro x hx
              rcases List.mem_cons.mp hx with hx1 | hx2
              · rw [hx1]
                exact ihV s p.1 p.2 (by rw [hv])
              · exact ihE rr q.1 q.2 (by rw [hq]) x hx2
            | error e =>
              rw [hq] at h
              exact absurd h (by simp [Except.map])
          · split at h
            · simp only [Except.ok.injEq, Prod.mk.injEq] at h
              rw [← h.1]
              intro x hx
              simp only [List.mem_singleton] at hx
              rw [hx]
              exact ihV s p.1 p.2 (by rw [hv])
            · exact absurd h (by simp)
    · intro acc s t r hpw hwv h
      simp only [parseMembs] at h
      cases hws : skipWs s with
      | nil =>
        rw [hws] at h
        exact absurd h (by simp)
      | cons c rest =>
        rw [hws] at h
        dsimp only at h
        split at h
        · cases hk : parseStrF (rest.length + 1) rest with
          | error e =>
            rw [hk] at h
            exact absurd h (by simp [Except.bind])
          | ok kp =>
            rw [hk] at h
            dsimp only [Except.bind] at h
            cases hws2 : skipWs kp.2 with
            | nil =>
              rw [hws2] at h
              exact absurd h (by simp)
            | cons c2 r2 =>
              rw [hws2] at h
              dsimp only at h
              split at h
              · cases hv : parseVal fu r2 with
                | error e =>
                  rw [hv] at h
                  exact absurd h (by simp [Except.bind])
                | ok vp =>
                  rw [hv] at h
                  dsimp only [Except.bind] at h
                  cases hws3 : skipWs vp.2 with
                  | nil =>
                    rw [hws3] at h
                    exact absurd h (by simp)
                  | cons c3 r3 =>
                    rw [hws3] at h
                    dsimp only at h
                    have hpw2 := insertKV_pairwise acc kp.1 vp.1 hpw
                    have hwv2 : ∀ p ∈ JValue.insertKV acc kp.1 vp.1, WF p.2 := by
                      intro p hp
                      rcases insertKV_mem acc kp.1 vp.1 p hp with h1 | h1
                      · rw [h1]
                        exact ihV r2 vp.1 vp.2 (by rw [hv])
                      · exact hwv p h1
                    split at h
                    · exact ihM _ r3 t r hpw2 hwv2 h
                    · split at h
                      · simp only [Except.ok.injEq, Prod.mk.injEq] at h
                        rw [← h.1]
                        exact WF.wfObject _ hpw2 hwv2
                      · exact absurd h (by simp)
              · exact absurd h (by simp)
        · exact absurd h (by simp)

/-- C3: for every ValueTree obtained by successfully parsing JSON text,
serializing it with the compact writer (`JWriter::FastWrite`) and
re-parsing the output with `JReader::parse` succeeds and yields the very
same tree — shape, content, and (exact-decimal) floating-point values
alike. -/
theorem roundtrip_write_parse (s : List Nat) (t : JValue)
    (h : JReader.parse s = .ok t) :
    JReader.parse (JWriter.FastWrite t) = .ok t := by
  have hwf : WF t := by
    unfold JReader.parse at h
    cases hv : parseVal (s.length + 1) s with
    | ok p =>
      rw [hv] at h
      simp only [Except.map, Except.ok.injEq] at h
      rw [← h]
      exact (parse_wf (s.length + 1)).1 s p.1 p.2 (by rw [hv])
    | error e =>
      rw [hv] at h
      exact absurd h (by simp [Except.map])
  unfold JReader.parse JWriter.FastWrite
  have hinv := (write_parse_inv ((writeV t).length + 1)).1 t [] hwf (by omega) trivial
  rw [List.append_nil] at hinv
  rw [hinv]
  rfl

/-- Witness for C3: the document `null` parses, and writing then
re-parsing its tree reproduces it. -/
theorem roundtrip_write_parse_witness :
    JReader.parse [110, 117, 108, 108] = .ok JValue.jNull ∧
    JReader.parse (JWriter.FastWrite JValue.jNull) = .ok JValue.jNull := by
  constructor
  · rfl
  · exact roundtrip_write_parse [110, 117, 108, 108] JValue.jNull rfl

theorem readByte_congr {m1 m2 : Nat → Nat} {len : Nat}
    (h : ∀ i, i < len → m1 i = m2 i) : readByte m1 len = readByte m2 len := by
  funext i
  unfold readByte
  by_cases hi : i < len
  · rw [if_pos hi, if_pos hi, h i hi]
  · rw [if_neg hi, if_neg hi]

theorem readBytesM_congr {m1 m2 : Nat → Nat} {len : Nat}
    (h : ∀ i, i < len → m1 i = m2 i) : readBytesM m1 len = readBytesM m2 len := by
  funext i n
  induction n generalizing i with
  | zero => rfl
  | succ n ih =>
    simp only [readBytesM]
    rw [readByte_congr h, ih (i + 1)]

theorem readUIntBE_congr {m1 m2 : Nat → Nat} {len : Nat}
    (h : ∀ i, i < len → m1 i = m2 i) : readUIntBE m1 len = readUIntBE m2 len := by
  funext i n
  unfold readUIntBE
  rw [readBytesM_congr h]

theorem getOffset_congr {m1 m2 : Nat → Nat} {len : Nat}
    (h : ∀ i, i < len → m1 i = m2 i) : getOffset m1 len = getOffset m2 len := by
  funext cfg idx
  unfold getOffset
  rw [readUIntBE_congr h]

theorem readLen_congr {m1 m2 : Nat → Nat} {len : Nat}
    (h : ∀ i, i < len → m1 i = m2 i) : readLen m1 len = readLen m2 len := by
  funext off lo
  unfold readLen
  rw [readByte_congr h, readUIntBE_congr h]

theorem readRefs_congr {m1 m2 : Nat → Nat} {len : Nat}
    (h : ∀ i, i < len → m1 i = m2 i) : readRefs m1 len = readRefs m2 len := by
  funext rs i n
  induction n generalizing i with
  | zero => rfl
  | succ n ih =>
    simp only [readRefs]
    rw [readUIntBE_congr h, ih (i + rs)]

theorem readU16s_congr {m1 m2 : Nat → Nat} {len : Nat}
    (h : ∀ i, i < len → m1 i = m2 i) : readU16s m1 len = readU16s m2 len := by
  funext i n
  induction n generalizing i with
  | zero => rfl
  | succ n ih =>
    simp only [readU16s]
    rw [readUIntBE_congr h, ih (i + 2)]

theorem readObj_congr {m1 m2 : Nat → Nat} {len : Nat}
    (h : ∀ i, i < len → m1 i = m2 i) (cfg : BCfg) : ∀ fu : Nat,
    readObj m1 len cfg fu = readObj m2 len cfg fu ∧
    mapReadObj m1 len cfg fu = mapReadObj m2 len cfg fu := by
  intro fu
  induction fu with
  | zero =>
    constructor
    · funext idx
      simp only [readObj]
    · funext l
      induction l with
      | nil => simp only [mapReadObj]
      | cons a as_ ihl =>
        simp only [mapReadObj, readObj]
        rw [ihl]
  | succ fu ih =>
    obtain ⟨ihO, ihL⟩ := ih
    have hO : readObj m1 len cfg (fu + 1) = readObj m2 len cfg (fu + 1) := by
      funext idx
      simp only [readObj]
      rw [getOffset_congr h, readByte_congr h, readUIntBE_congr h, readLen_congr h,
        readRefs_congr h, readU16s_congr h, readBytesM_congr h, ihL]
    refine ⟨hO, ?_⟩
    funext l
    induction l with
    | nil => simp only [mapReadObj]
    | cons a as_ ihl =>
      simp only [mapReadObj]
      rw [hO, ihl]

/-- C1: the binary-plist decoder — `PReader::parseBinary` with its
helpers `readUIntSize` (`readLen`) and `readBinaryValue` (`readObj`) —
never reads a byte outside the `[buffer, buffer + len)` range: its result
depends only on the bytes below `len`, for every input, however
malformed; and failure is always the clean `none` result, in particular
on any buffer too short to hold the 8-byte header plus the 32-byte
trailer.  Truncation, out-of-range offsets, reference cycles (which
exhaust the `numObjects + 1` reference-depth fuel), and oversized length
declarations all fall into the validated-failure paths of the model. -/
theorem parseBinary_never_reads_outside (m1 m2 : Nat → Nat) (len : Nat)
    (h : ∀ i, i < len → m1 i = m2 i) :
    PReader.parseBinary m1 len = PReader.parseBinary m2 len ∧
    (len < 40 → PReader.parseBinary m1 len = none) := by
  constructor
  · unfold PReader.parseBinary
    by_cases h40 : 40 ≤ len
    · rw [if_pos h40, if_pos h40]
      rw [readBytesM_congr h, readByte_congr h, readUIntBE_congr h]
      have hobj : ∀ cfg : BCfg, readObj m1 len cfg = readObj m2 len cfg := by
        intro cfg
        funext fu
        exact (readObj_congr h cfg fu).1
      have hobj2 : readObj m1 len = readObj m2 len := funext hobj
      rw [hobj2]
    · rw [if_neg h40, if_neg h40]
  · intro hlt
    unfold PReader.parseBinary
    rw [if_neg (by omega)]

/-- Witness for C1: two memories that agree on an empty buffer decode
identically (both fail), and the too-short buffer fails. -/
theorem parseBinary_never_reads_outside_witness :
    PReader.parseBinary (fun _ => 0) 0 = PReader.parseBinary (fun i => i + 1) 0 ∧
    PReader.parseBinary (fun _ => 0) 0 = none := by
  have h := parseBinary_never_reads_outside (fun _ => 0) (fun i => i + 1) 0
    (fun i hi => absurd hi (Nat.not_lt_zero i))
  exact ⟨h.1, h.2 (by omega)⟩
